import Mathlib

/-!
Verification of the aimazing maze-race game core.

Shallow embedding of:
- `src/server/lib/types.ts` (shared types and the server game module:
  `createGameState`, `getPositionInFront`, `turnLeft`, `turnRight`,
  `exploreDirection`, `expandExplored`, `getMouseVision`, `applyAction`,
  `executeTurn`) in namespace `Srv`;
- `src/lib/game.ts` (the game-loop variant: `createGameWithMaze`, `addPlayer`,
  `applyAction`, `executeTurn`, `checkGameEnd`) in namespace `Loop`;
- `src/lib/maze.ts` (`generateMaze`, `hasPath` and their helpers) in
  namespace `MazeGen`;
- the `DEFAULT_CONFIG` defaults of `src/lib/game-loop.ts` in namespace `GL`.

Modelling conventions:
- JS numbers used as grid coordinates are embedded as `Int` (positions can
  step outside the grid, e.g. `y - 1` at `y = 0`); sizes and turn counters
  are embedded as `Nat` (they are only ever 0 or incremented).
- The TS `Set<string>` of `posKey(x, y) = "x,y"` strings is embedded as a
  `Finset Position`; `posKey` is injective on integer coordinates, so the
  key set and the position set are in bijection.
- TS functions that `throw` are embedded as `Option`-returning functions;
  `none` is the thrown error.
- `Math.random()` draws are embedded as an oracle `Oracle := Nat → Nat`, one
  consumed value per draw: an index draw `Math.floor(Math.random()*len)`
  becomes `o 0 % len` and the biased-coin draw `Math.random() < 0.7` becomes
  `o 0 % 10 < 7`.  Every real execution corresponds to some oracle, and
  theorems below quantify over all oracles.
- TS `while` loops whose termination is not structural are embedded with an
  explicit fuel parameter, returning `none` on fuel exhaustion; sufficiency
  of the chosen fuel is proved where a claim needs the loop's result.
-/

namespace Aimazing

/-- `CellType` from `src/server/lib/types.ts` / `src/lib/types.ts`. -/
inductive Cell where
  | WALL
  | PATH
deriving DecidableEq, Repr

/-- `Maze = CellType[][]`, indexed `maze[y][x]`. -/
abbrev Maze := List (List Cell)

/-- `Position = { x: number; y: number }`. -/
structure Position where
  x : Int
  y : Int
deriving DecidableEq, Repr

/-- `Facing = 'NORTH' | 'SOUTH' | 'EAST' | 'WEST'`. -/
inductive Facing where
  | NORTH
  | SOUTH
  | EAST
  | WEST
deriving DecidableEq, Repr

/-- The `'LEFT' | 'RIGHT'` turn component of a `MouseAction`. -/
inductive TurnDir where
  | LEFT
  | RIGHT
deriving DecidableEq, Repr

/-- `MouseAction { turn?: 'LEFT'|'RIGHT'; move: boolean }`. -/
structure MouseAction where
  turn : Option TurnDir
  move : Bool
deriving DecidableEq, Repr

/-- `getPositionInFront` (identical in both game modules). -/
def getPositionInFront (pos : Position) (facing : Facing) : Position :=
  match facing with
  | .NORTH => ⟨pos.x, pos.y - 1⟩
  | .SOUTH => ⟨pos.x, pos.y + 1⟩
  | .EAST => ⟨pos.x + 1, pos.y⟩
  | .WEST => ⟨pos.x - 1, pos.y⟩

/-- `turnLeft` (identical in both game modules). -/
def turnLeft (facing : Facing) : Facing :=
  match facing with
  | .NORTH => .WEST
  | .WEST => .SOUTH
  | .SOUTH => .EAST
  | .EAST => .NORTH

/-- `turnRight` (identical in both game modules). -/
def turnRight (facing : Facing) : Facing :=
  match facing with
  | .NORTH => .EAST
  | .EAST => .SOUTH
  | .SOUTH => .WEST
  | .WEST => .NORTH

/-- Cell lookup `maze[p.y][p.x]`, `none` when the row or column index does
not exist (the TS code only reads cells after an explicit bounds check;
`undefined` reads on ragged rows compare unequal to both `'WALL'` and
`'PATH'`, which `none` models). -/
def cellAt? (maze : Maze) (p : Position) : Option Cell :=
  if p.y < 0 ∨ p.x < 0 then none
  else (maze.get? p.y.toNat).bind fun row => row.get? p.x.toNat

/-- The bounds test `x >= 0 && x < size && y >= 0 && y < size` with
`size = maze.length`, as used by `exploreDirection` and `applyAction`. -/
def inGrid (size : Nat) (p : Position) : Prop :=
  0 ≤ p.x ∧ p.x < (size : Int) ∧ 0 ≤ p.y ∧ p.y < (size : Int)

instance (size : Nat) (p : Position) : Decidable (inGrid size p) := by
  unfold inGrid; infer_instance

/-- The loop body of `exploreDirection`: walk outward from `pos` in direction
`facing`, adding each visited cell, stopping at the grid boundary or just
after the first `WALL`.  Each iteration advances `pos` one cell in the fixed
direction `facing`, so `maze.length + 2` iterations always reach a `break`;
the fuel parameter makes that explicit. -/
def exploreDirectionGo (maze : Maze) (facing : Facing) :
    Nat → Finset Position → Position → Finset Position
  | 0, explored, _ => explored
  | fuel + 1, explored, pos =>
    let next := getPositionInFront pos facing
    if ¬ inGrid maze.length next then explored
    else
      let explored := insert next explored
      if cellAt? maze next = some .WALL then explored
      else exploreDirectionGo maze facing fuel explored next

/-- `exploreDirection` (line-of-sight cast, identical in both game modules). -/
def exploreDirection (maze : Maze) (explored : Finset Position)
    (startPos : Position) (facing : Facing) : Finset Position :=
  exploreDirectionGo maze facing (maze.length + 2) explored startPos

/-- `expandExplored` (identical in both game modules): add the current cell,
then cast front, left and right. -/
def expandExplored (maze : Maze) (position : Position) (facing : Facing)
    (explored : Finset Position) : Finset Position :=
  let ex := insert position explored
  let ex := exploreDirection maze ex position facing
  let ex := exploreDirection maze ex position (turnLeft facing)
  exploreDirection maze ex position (turnRight facing)

/-- The `newFacing` local of `applyAction` (both variants): apply the
optional 90° turn. -/
def actionFacing (facing : Facing) (action : MouseAction) : Facing :=
  match action.turn with
  | some .LEFT => turnLeft facing
  | some .RIGHT => turnRight facing
  | none => facing

/-- The `newPosition` local of `applyAction` (both variants): if the action
moves, step onto the front cell when it is in-bounds PATH, else stay. -/
def actionPosition (maze : Maze) (pos : Position) (newFacing : Facing)
    (action : MouseAction) : Position :=
  if action.move then
    if inGrid maze.length (getPositionInFront pos newFacing) ∧
        cellAt? maze (getPositionInFront pos newFacing) = some .PATH
    then getPositionInFront pos newFacing
    else pos
  else pos

end Aimazing

namespace Aimazing.Srv

/-- `Mouse` from `src/server/lib/types.ts`. -/
structure Mouse where
  name : String
  position : Position
  facing : Facing
  explored : Finset Position
  actionHistory : List MouseAction
deriving DecidableEq

/-- `GameState` from `src/server/lib/types.ts`. -/
structure GameState where
  maze : Maze
  entrance : Position
  exit : Position
  maxTurns : Nat
  turn : Nat
  mice : List Mouse
deriving DecidableEq

/-- `GameStatus` from `src/server/lib/db.ts`. -/
inductive GameStatus where
  | WAITING
  | PLAYING
  | CREATOR_WIN
  | OPPONENT_WIN
  | DRAW
deriving DecidableEq, Repr

/-- `MazePreview` from the server game module. -/
structure MazePreview where
  maze : Maze
  entrance : Position
  exit : Position
deriving DecidableEq

/-- `createGameState(mazeSize, maxTurns?, existingMaze?)`.  The generated-maze
branch (`existingMaze ?? generateMaze(mazeSize)`) is supplied by the caller
here via `mazeSource`, which is how every claim about this function uses it;
`maxTurns ?? Math.floor(mazeSize * mazeSize / 2)` is `Nat` floor division. -/
def createGameState (mazeSize : Nat) (maxTurns : Option Nat)
    (mazeSource : MazePreview) : GameState :=
  { maze := mazeSource.maze
    entrance := mazeSource.entrance
    exit := mazeSource.exit
    maxTurns := maxTurns.getD (mazeSize * mazeSize / 2)
    turn := 0
    mice := [] }

/-- What one vision entry can be: `CellType | 'EXIT' | 'UNKNOWN'`. -/
inductive VisionCell where
  | WALL
  | PATH
  | EXIT
  | UNKNOWN
deriving DecidableEq, Repr

/-- The `getCell` closure inside `getMouseVision`: exit coordinate first,
then unexplored cells are `UNKNOWN`, then the `exploredCells` map (explored
keys whose coordinates pass the `y < maze.length && x < maze[0].length`
check, mapped to `maze[y][x]`), with a missing entry read as `UNKNOWN`. -/
def getCell (state : GameState) (explored : Finset Position) (pos : Position) :
    VisionCell :=
  if pos = state.exit then .EXIT
  else if pos ∉ explored then .UNKNOWN
  else
    let inMapBounds :=
      0 ≤ pos.y ∧ pos.y < (state.maze.length : Int) ∧
      0 ≤ pos.x ∧ pos.x < ((state.maze.headD []).length : Int)
    if inMapBounds then
      match cellAt? state.maze pos with
      | some .WALL => .WALL
      | some .PATH => .PATH
      | none => .UNKNOWN
    else .UNKNOWN

/-- `MouseVision` from `src/server/lib/types.ts` (the `exploredMap` ASCII
rendering is not referenced by any claim and is omitted). -/
structure MouseVision where
  position : Position
  facing : Facing
  front : VisionCell
  left : VisionCell
  right : VisionCell
  exitVisible : Option Position
  opponentVisible : Option Position
deriving DecidableEq, Repr

/-- `getMouseVision(state, mouseIndex)`; throws (`none`) on an invalid mouse
index. -/
def getMouseVision (state : GameState) (mouseIndex : Nat) : Option MouseVision :=
  match state.mice.get? mouseIndex with
  | none => none
  | some mouse =>
    let exitVisible := state.exit ∈ mouse.explored
    let opponentVisible : Option Position :=
      if state.mice.length = 2 then
        let opponent := (state.mice.get? (if mouseIndex = 0 then 1 else 0)).getD mouse
        if opponent.position ∈ mouse.explored then some opponent.position else none
      else none
    some
      { position := mouse.position
        facing := mouse.facing
        front := getCell state mouse.explored (getPositionInFront mouse.position mouse.facing)
        left := getCell state mouse.explored (getPositionInFront mouse.position (turnLeft mouse.facing))
        right := getCell state mouse.explored (getPositionInFront mouse.position (turnRight mouse.facing))
        exitVisible := if exitVisible then some state.exit else none
        opponentVisible := opponentVisible }

/-- The `newMouse` built by `applyAction`: turned facing, guarded position,
copied-and-expanded explored set, action appended to the history. -/
def appliedMouse (maze : Maze) (mouse : Mouse) (action : MouseAction) : Mouse :=
  let newFacing := actionFacing mouse.facing action
  let newPosition := actionPosition maze mouse.position newFacing action
  { mouse with
    position := newPosition
    facing := newFacing
    explored := expandExplored maze newPosition newFacing mouse.explored
    actionHistory := mouse.actionHistory ++ [action] }

/-- `applyAction(state, mouseIndex, action)`; throws (`none`) on an invalid
mouse index. -/
def applyAction (state : GameState) (mouseIndex : Nat) (action : MouseAction) :
    Option GameState :=
  match state.mice.get? mouseIndex with
  | none => none
  | some mouse =>
    some { state with mice := state.mice.set mouseIndex (appliedMouse state.maze mouse action) }

/-- `executeTurn(state, actions)`: requires exactly two mice, applies mouse 0
then mouse 1, increments the turn counter, then evaluates the end condition
jointly on the resulting state. -/
def executeTurn (state : GameState) (a0 a1 : MouseAction) :
    Option (GameState × GameStatus) :=
  if state.mice.length ≠ 2 then none
  else
    match applyAction state 0 a0 with
    | none => none
    | some s1 =>
      match applyAction s1 1 a1 with
      | none => none
      | some s2 =>
        let s3 := { s2 with turn := s2.turn + 1 }
        match s3.mice with
        | [m0, m1] =>
          let mouse1AtExit := m0.position = s3.exit
          let mouse2AtExit := m1.position = s3.exit
          let status : GameStatus :=
            if mouse1AtExit ∧ mouse2AtExit then .DRAW
            else if mouse1AtExit then .CREATOR_WIN
            else if mouse2AtExit then .OPPONENT_WIN
            else if s3.turn ≥ s3.maxTurns then .DRAW
            else .PLAYING
          some (s3, status)
        | _ => none

/-- Spec-side predicate of claim C1: `atExit(i)` — mouse `i`'s position
equals the maze exit. -/
def atExit (s : GameState) (i : Nat) : Prop :=
  (s.mice.get? i).map Mouse.position = some s.exit

instance (s : GameState) (i : Nat) : Decidable (atExit s i) := by
  unfold atExit; infer_instance

/-- Spec-side joint end condition of claim C1, evaluated on the
post-both-moves, post-increment state: both at exit → DRAW; exactly one →
that player's win; turn ceiling reached → DRAW; otherwise keep PLAYING. -/
def endStatus (s : GameState) : GameStatus :=
  if atExit s 0 ∧ atExit s 1 then .DRAW
  else if atExit s 0 then .CREATOR_WIN
  else if atExit s 1 then .OPPONENT_WIN
  else if s.turn ≥ s.maxTurns then .DRAW
  else .PLAYING

/-- Spec-side classification of one vision entry (the amended claim C6):
the exit coordinate reads EXIT; an out-of-bounds cell reads UNKNOWN (it can
never be explored, and even a stray explored out-of-bounds key is reported
UNKNOWN); an unexplored cell reads UNKNOWN; an explored in-bounds cell reads
its maze cell type. -/
def classifyCell (s : GameState) (explored : Finset Position) (p : Position) :
    VisionCell :=
  if p = s.exit then .EXIT
  else if ¬ inGrid s.maze.length p then .UNKNOWN
  else if p ∉ explored then .UNKNOWN
  else
    match cellAt? s.maze p with
    | some .WALL => .WALL
    | some .PATH => .PATH
    | none => .UNKNOWN

/-- Run a sequence of turns (the server caller's loop), keeping the state
component of each `executeTurn` result. -/
def runTurns (s : GameState) : List (MouseAction × MouseAction) → Option GameState
  | [] => some s
  | (a0, a1) :: rest =>
    match executeTurn s a0 a1 with
    | none => none
    | some (s', _) => runTurns s' rest

end Aimazing.Srv

namespace Aimazing.Loop

/-- `Mouse` from `src/lib/types.ts` (no `name` field in this variant). -/
structure Mouse where
  position : Position
  facing : Facing
  explored : Finset Position
  actionHistory : List MouseAction
deriving DecidableEq

/-- `Player` from `src/lib/types.ts`. -/
structure Player where
  id : String
  name : String
  prompt : String
  mouse : Mouse
deriving DecidableEq

/-- `GameStatus` from `src/lib/types.ts`. -/
inductive GameStatus where
  | WAITING
  | PLAYING
  | FINISHED
deriving DecidableEq, Repr

/-- `GameResult` from `src/lib/types.ts` (`null` is `none` on the `Game`
field). -/
inductive GameResult where
  | PLAYER1_WIN
  | PLAYER2_WIN
  | DRAW
deriving DecidableEq, Repr

/-- `Game` from `src/lib/types.ts`. -/
structure Game where
  maze : Maze
  entrance : Position
  exit : Position
  players : List Player
  turn : Nat
  maxTurns : Nat
  status : GameStatus
  result : Option GameResult
deriving DecidableEq

/-- `createGameWithMaze(maze, entrance, exit, maxTurns = 200)`. -/
def createGameWithMaze (maze : Maze) (entrance exit_ : Position)
    (maxTurns : Nat) : Game :=
  { maze := maze
    entrance := entrance
    exit := exit_
    players := []
    turn := 0
    maxTurns := maxTurns
    status := .WAITING
    result := none }

/-- `addPlayer(game, name, prompt)`: rejects (`none`) a third player or a
non-WAITING game; otherwise places a new mouse at the entrance facing EAST,
seeds `explored` with the entrance key and expands it by the initial
line-of-sight cast.  The random `generateId()` result is passed in as `pid`
(it is never inspected by the game logic). -/
def addPlayer (game : Game) (pid name prompt : String) : Option Game :=
  if game.players.length ≥ 2 then none
  else if game.status ≠ .WAITING then none
  else
    let mouse : Mouse :=
      { position := game.entrance
        facing := .EAST
        explored := expandExplored game.maze game.entrance .EAST {game.entrance}
        actionHistory := [] }
    let player : Player := { id := pid, name := name, prompt := prompt, mouse := mouse }
    let newPlayers := game.players ++ [player]
    let newStatus : GameStatus := if newPlayers.length = 2 then .PLAYING else .WAITING
    some { game with players := newPlayers, status := newStatus }

/-- The `newMouse` built by the game-loop variant's `applyAction`. -/
def appliedMouse (maze : Maze) (mouse : Mouse) (action : MouseAction) : Mouse :=
  let newFacing := actionFacing mouse.facing action
  let newPosition := actionPosition maze mouse.position newFacing action
  { position := newPosition
    facing := newFacing
    explored := expandExplored maze newPosition newFacing mouse.explored
    actionHistory := mouse.actionHistory ++ [action] }

/-- `applyAction(game, playerIndex, action)` from `src/lib/game.ts`; throws
(`none`) on an invalid player index. -/
def applyAction (game : Game) (playerIndex : Nat) (action : MouseAction) :
    Option Game :=
  match game.players.get? playerIndex with
  | none => none
  | some player =>
    let newPlayer : Player := { player with mouse := appliedMouse game.maze player.mouse action }
    some { game with players := game.players.set playerIndex newPlayer }

/-- `checkGameEnd(game)`: on a PLAYING game with two players, evaluate the
end condition jointly and transition to FINISHED with the matching result;
reads `players[0]`/`players[1]`, so anything other than two players is a
crash (`none`). -/
def checkGameEnd (game : Game) : Option Game :=
  if game.status ≠ .PLAYING then some game
  else
    match game.players with
    | [p1, p2] =>
      let player1AtExit := p1.mouse.position = game.exit
      let player2AtExit := p2.mouse.position = game.exit
      let rs : Option GameResult × GameStatus :=
        if player1AtExit ∧ player2AtExit then (some .DRAW, .FINISHED)
        else if player1AtExit then (some .PLAYER1_WIN, .FINISHED)
        else if player2AtExit then (some .PLAYER2_WIN, .FINISHED)
        else if game.turn ≥ game.maxTurns then (some .DRAW, .FINISHED)
        else (none, .PLAYING)
      if rs.2 = .FINISHED then some { game with status := rs.2, result := rs.1 }
      else some game
    | _ => none

/-- `executeTurn(game, actions)` from `src/lib/game.ts`: a contract violation
(`none`) on a non-PLAYING game or a game without exactly two players;
otherwise apply both actions (mouse 0 then mouse 1), increment the turn
counter, and run `checkGameEnd`. -/
def executeTurn (game : Game) (a0 a1 : MouseAction) : Option Game :=
  if game.status ≠ .PLAYING then none
  else if game.players.length ≠ 2 then none
  else
    match applyAction game 0 a0 with
    | none => none
    | some g1 =>
      match applyAction g1 1 a1 with
      | none => none
      | some g2 => checkGameEnd { g2 with turn := g2.turn + 1 }

/-- Game states reachable by creating a game, registering both players, and
then repeatedly executing turns. -/
inductive Reachable : Game → Prop where
  | created (maze : Maze) (entrance exit_ : Position) (maxTurns : Nat)
      (pid1 n1 pr1 pid2 n2 pr2 : String) (g1 g2 : Game)
      (h1 : addPlayer (createGameWithMaze maze entrance exit_ maxTurns) pid1 n1 pr1 = some g1)
      (h2 : addPlayer g1 pid2 n2 pr2 = some g2) :
      Reachable g2
  | step (g g' : Game) (a0 a1 : MouseAction)
      (hg : Reachable g) (h : executeTurn g a0 a1 = some g') :
      Reachable g'

end Aimazing.Loop

namespace Aimazing.GL

/-- `DEFAULT_CONFIG.mazeSize` from `src/lib/game-loop.ts`. -/
def DEFAULT_CONFIG_mazeSize : Nat := 15

/-- `DEFAULT_CONFIG.maxTurns` from `src/lib/game-loop.ts`. -/
def DEFAULT_CONFIG_maxTurns : Nat := 200

/-- The `{ ...DEFAULT_CONFIG, ...config }` merge in `runGame`: the maze size
actually used when the caller leaves it unset. -/
def effMazeSize (cfg : Option Nat) : Nat := cfg.getD DEFAULT_CONFIG_mazeSize

/-- The `{ ...DEFAULT_CONFIG, ...config }` merge in `runGame`: the turn
ceiling actually used when the caller leaves it unset. -/
def effMaxTurns (cfg : Option Nat) : Nat := cfg.getD DEFAULT_CONFIG_maxTurns

end Aimazing.GL

namespace Aimazing.MazeGen

/-- Stream of `Math.random()` draws (see the modelling conventions above). -/
abbrev Oracle := Nat → Nat

/-- Drop the first (consumed) draw of the oracle. -/
def otail (o : Oracle) : Oracle := fun n => o (n + 1)

/-- `MazeResult` from `src/lib/maze.ts`. -/
structure MazeResult where
  maze : Maze
  entrance : Position
  exit : Position
  solutionPath : List Position

/-- The four edge sides accepted by `pickEdgePosition`. -/
inductive Side where
  | left
  | right
  | top
  | bottom

/-- The `oddCoords` array built by `pickEdgePosition`:
`for (let i = 1; i < size - 1; i += 2) oddCoords.push(i)`. -/
def oddCoords (size : Nat) : List Nat :=
  (List.range ((size - 1) / 2)).map fun k => 1 + 2 * k

/-- `pickEdgePosition(size, side)`: a random odd-aligned coordinate on the
requested inner edge.  (With an empty `oddCoords` the source would yield an
`undefined` coordinate; that needs `size < 3` and is unreachable from
`generateMaze`'s callers, the `getD 1` default stands in for it.) -/
def pickEdgePosition (size : Nat) (side : Side) (o : Oracle) :
    Position × Oracle :=
  let oc := oddCoords size
  let randomOdd : Int := ((oc.get? (o 0 % oc.length)).getD 1 : Nat)
  match side with
  | .left => (⟨1, randomOdd⟩, otail o)
  | .right => (⟨(size : Int) - 2, randomOdd⟩, otail o)
  | .top => (⟨randomOdd, 1⟩, otail o)
  | .bottom => (⟨randomOdd, (size : Int) - 2⟩, otail o)

/-- `manhattanDistance`. -/
def manhattanDistance (a b : Position) : Nat :=
  (a.x - b.x).natAbs + (a.y - b.y).natAbs

/-- The direction offsets used for two-cells-away lattice neighbors
(up, down, left, right — in source order). -/
def dirs2 : List (Int × Int) := [(0, -2), (0, 2), (-2, 0), (2, 0)]

/-- The neighbor bounds test `nx > 0 && nx < size - 1 && ny > 0 && ny < size - 1`. -/
def inInner (size : Nat) (p : Position) : Prop :=
  0 < p.x ∧ p.x < (size : Int) - 1 ∧ 0 < p.y ∧ p.y < (size : Int) - 1

instance (size : Nat) (p : Position) : Decidable (inInner size p) := by
  unfold inInner; infer_instance

/-- `getValidNeighbors(pos, size, visited, target)`: unvisited in-bounds
lattice neighbors two cells away; the target is always allowed, even if
visited (and is pushed twice when unvisited, as in the source). -/
def getValidNeighbors (pos : Position) (size : Nat) (visited : Finset Position)
    (target : Position) : List Position :=
  dirs2.foldl
    (fun neighbors d =>
      let n : Position := ⟨pos.x + d.1, pos.y + d.2⟩
      if inInner size n then
        let neighbors := if n ∉ visited then neighbors ++ [n] else neighbors
        if n = target then neighbors ++ [n] else neighbors
      else neighbors)
    []

/-- The 70%-branch of `pickBiasedNeighbor`: the first neighbor closest to the
target in Manhattan distance (callers guarantee a nonempty list). -/
def pickClosest (neighbors : List Position) (target : Position) : Position :=
  neighbors.foldl
    (fun best n =>
      if manhattanDistance n target < manhattanDistance best target then n else best)
    (neighbors.headD ⟨0, 0⟩)

/-- `pickBiasedNeighbor(neighbors, target)`: 70% chance to pick the neighbor
closest to the target, otherwise a uniformly random element. -/
def pickBiasedNeighbor (neighbors : List Position) (target : Position)
    (o : Oracle) : Position × Oracle :=
  if o 0 % 10 < 7 then (pickClosest neighbors target, otail o)
  else ((neighbors.get? (o 1 % neighbors.length)).getD ⟨0, 0⟩, otail (otail o))

/-- The `while (current !== end)` loop of `generateRandomPath`, with explicit
fuel.  Dead ends pop the path (resuming from the new last element — which may
be a carved connector cell); an emptied path restarts from `start` with a
cleared visited set; otherwise a biased neighbor is chosen and the connector
cell between `current` and `next` is recorded together with `next`. -/
def walkGo (size : Nat) (start target : Position) :
    Nat → List Position → Finset Position → Position → Oracle →
    Option (List Position × Oracle)
  | 0, _, _, _, _ => none
  | fuel + 1, path, visited, current, o =>
    if current = target then some (path, o)
    else
      let neighbors := getValidNeighbors current size visited target
      if neighbors.isEmpty then
        let path' := path.dropLast
        if path'.isEmpty then
          walkGo size start target fuel [start] {start} start o
        else
          walkGo size start target fuel path' visited (path'.getLast?.getD start) o
      else
        let pick := pickBiasedNeighbor neighbors target o
        let next := pick.1
        let between : Position :=
          ⟨current.x + (next.x - current.x) / 2, current.y + (next.y - current.y) / 2⟩
        walkGo size start target fuel (path ++ [between, next])
          (insert next (insert between visited)) next pick.2

/-- `generateRandomPath(maze, start, end, size)` (the maze argument is never
read by the source function): biased random walk from `start`, beginning with
`path = [start]`, `visited = {start}`, `current = start`. -/
def generateRandomPath (size : Nat) (start target : Position) (fuel : Nat)
    (o : Oracle) : Option (List Position × Oracle) :=
  walkGo size start target fuel [start] {start} start o

/-- The write `maze[p.y][p.x] = c`.  (All writes performed by the generator
are at inner-grid positions; out-of-range writes — which in JS would create
stray array properties — leave the grid unchanged here.) -/
def setCell (maze : Maze) (p : Position) (c : Cell) : Maze :=
  if p.y < 0 ∨ p.x < 0 then maze
  else maze.set p.y.toNat (((maze.get? p.y.toNat).getD []).set p.x.toNat c)

/-- Step 3 of `generateMaze`: carve every solution-path cell to PATH. -/
def carvePath (maze : Maze) (path : List Position) : Maze :=
  path.foldl (fun m p => setCell m p .PATH) maze

/-- `getUnvisitedNeighbors(pos, size, visited)`. -/
def getUnvisitedNeighbors (pos : Position) (size : Nat)
    (visited : Finset Position) : List Position :=
  dirs2.foldl
    (fun neighbors d =>
      let n : Position := ⟨pos.x + d.1, pos.y + d.2⟩
      if inInner size n ∧ n ∉ visited then neighbors ++ [n] else neighbors)
    []

/-- The `while (stack.length > 0)` loop of `carveFrom`, with explicit fuel.
The source stack pushes and pops at the array end; it is modelled here with
the top of the stack at the head of the list. -/
def carveFromGo (size : Nat) :
    Nat → Maze → List Position → Finset Position → Oracle →
    Option (Maze × Finset Position × Oracle)
  | 0, _, _, _, _ => none
  | _ + 1, maze, [], visited, o => some (maze, visited, o)
  | fuel + 1, maze, current :: rest, visited, o =>
    let neighbors := getUnvisitedNeighbors current size visited
    if neighbors.isEmpty then carveFromGo size fuel maze rest visited o
    else
      let next := (neighbors.get? (o 0 % neighbors.length)).getD current
      let wallPos : Position :=
        ⟨current.x + (next.x - current.x) / 2, current.y + (next.y - current.y) / 2⟩
      let maze' := setCell (setCell maze wallPos .PATH) next .PATH
      carveFromGo size fuel maze' (next :: current :: rest)
        (insert next (insert wallPos visited)) (otail o)

/-- Fuel that always suffices for `carveFromGo` (proved below). -/
def carveFuel (size : Nat) : Nat := 2 * size * size + 2

/-- `carveFrom(maze, start, size, visited)`: randomized depth-first carving
from `start` over unvisited lattice neighbors. -/
def carveFrom (size : Nat) (maze : Maze) (start : Position)
    (visited : Finset Position) (o : Oracle) :
    Option (Maze × Finset Position × Oracle) :=
  carveFromGo size (carveFuel size) maze [start] visited o

/-- Swap the elements at indices `i` and `j` (the body of the shuffle loop). -/
def lswap (l : List Position) (i j : Nat) : List Position :=
  match l.get? i, l.get? j with
  | some a, some b => (l.set i b).set j a
  | _, _ => l

/-- The Fisher–Yates loop `for (i = length - 1; i > 0; i--)`; the argument is
the current loop index `i`. -/
def shuffleGo : List Position → Nat → Oracle → List Position × Oracle
  | l, 0, o => (l, o)
  | l, i + 1, o => shuffleGo (lswap l (i + 1) (o 0 % (i + 2))) i (otail o)

/-- `shuffle(array)`. -/
def shuffle (l : List Position) (o : Oracle) : List Position × Oracle :=
  shuffleGo l (l.length - 1) o

/-- `[...solutionPath].filter((_, i) => i % 2 === 0)`: the even-indexed
entries (the lattice nodes of the walk, not the carved connector cells). -/
def evenIndexed (l : List Position) : List Position :=
  (l.enum.filter fun p => p.1 % 2 = 0).map Prod.snd

/-- The `for (const start of branchPoints) carveFrom(...)` loop of
`addBranchPaths`; the maze, the shared visited set and the oracle are
threaded through the successive `carveFrom` calls. -/
def branchLoop (size : Nat) :
    List Position → Maze → Finset Position → Oracle →
    Option (Maze × Finset Position × Oracle)
  | [], maze, visited, o => some (maze, visited, o)
  | start :: rest, maze, visited, o =>
    match carveFrom size maze start visited o with
    | none => none
    | some (maze', visited', o') => branchLoop size rest maze' visited' o'

/-- `addBranchPaths(maze, solutionPath, size)`: mark the solution path
visited, shuffle its even-indexed cells, and run a randomized
depth-first carve from each in shuffled order. -/
def addBranchPaths (size : Nat) (maze : Maze) (solutionPath : List Position)
    (o : Oracle) : Option (Maze × Oracle) :=
  let visited := solutionPath.foldl (fun s p => insert p s) ∅
  let branchPoints := evenIndexed solutionPath
  let sh := shuffle branchPoints o
  match branchLoop size sh.1 maze visited sh.2 with
  | none => none
  | some (maze', _, o') => some (maze', o')

/-- Fuel that always suffices for `walkGo` (proved below). -/
def walkFuel (size : Nat) : Nat := 3 * size * size + 4

/-- `generateMaze(size)`: normalize to an odd size, start from an all-WALL
grid, pick entrance and exit on the left and right inner edges, generate and
carve a guaranteed solution path, then add branch paths. -/
def generateMaze (size : Nat) (o : Oracle) : Option MazeResult :=
  let mazeSize := if size % 2 = 0 then size + 1 else size
  let maze0 : Maze := List.replicate mazeSize (List.replicate mazeSize Cell.WALL)
  let pe := pickEdgePosition mazeSize .left o
  let px := pickEdgePosition mazeSize .right pe.2
  match generateRandomPath mazeSize pe.1 px.1 (walkFuel mazeSize) px.2 with
  | none => none
  | some (solutionPath, o3) =>
    let maze1 := carvePath maze0 solutionPath
    match addBranchPaths mazeSize maze1 solutionPath o3 with
    | none => none
    | some (maze2, _) => some ⟨maze2, pe.1, px.1, solutionPath⟩

/-- The four one-cell direction offsets used by the BFS of `hasPath`. -/
def dirs1 : List (Int × Int) := [(0, -1), (0, 1), (-1, 0), (1, 0)]

/-- The `while (queue.length > 0)` loop of `hasPath`, with explicit fuel:
dequeue from the front; report success on reaching `target`; otherwise
enqueue every in-bounds unvisited PATH neighbor, marking it visited. -/
def hasPathGo (maze : Maze) (target : Position) :
    Nat → Finset Position → List Position → Option Bool
  | 0, _, _ => none
  | _ + 1, _, [] => some false
  | fuel + 1, visited, current :: queue =>
    if current = target then some true
    else
      let st :=
        dirs1.foldl
          (fun (st : Finset Position × List Position) d =>
            let n : Position := ⟨current.x + d.1, current.y + d.2⟩
            if inGrid maze.length n ∧ cellAt? maze n = some .PATH ∧ n ∉ st.1 then
              (insert n st.1, st.2 ++ [n])
            else st)
          (visited, queue)
      hasPathGo maze target fuel st.1 st.2

/-- Fuel that always suffices for `hasPathGo` (proved below). -/
def bfsFuel (size : Nat) : Nat := size * size + 2

/-- `hasPath(maze, start, end)`: BFS reachability. -/
def hasPath (maze : Maze) (start target : Position) : Option Bool :=
  hasPathGo maze target (bfsFuel maze.length) {start} [start]

end Aimazing.MazeGen

namespace Aimazing.Loop

/-- `createGame(mazeSize = 15, maxTurns = 200)` from `src/lib/game.ts`:
generate a maze and build the empty game around it. -/
def createGame (mazeSize maxTurns : Nat) (o : MazeGen.Oracle) : Option Game :=
  (MazeGen.generateMaze mazeSize o).map fun r =>
    createGameWithMaze r.maze r.entrance r.exit maxTurns

end Aimazing.Loop

namespace Aimazing.MazeGen

/-- The cells satisfying the neighbor bounds test, as a finite set (used as
the decreasing measure of the generator's loops). -/
def innerRegion (size : Nat) : Finset Position :=
  (Finset.Icc (1 : Int) ((size : Int) - 2) ×ˢ Finset.Icc (1 : Int) ((size : Int) - 2)).image
    fun q => ⟨q.1, q.2⟩

/-- The cells satisfying the BFS bounds test `0 ≤ c < size`, as a finite set. -/
def gridRegion (size : Nat) : Finset Position :=
  (Finset.Icc (0 : Int) ((size : Int) - 1) ×ˢ Finset.Icc (0 : Int) ((size : Int) - 1)).image
    fun q => ⟨q.1, q.2⟩

/-- One two-cell lattice jump landing inside the inner bounds (the moves
`getValidNeighbors` considers). -/
def step2 (size : Nat) (p q : Position) : Prop :=
  (∃ d ∈ dirs2, q = ⟨p.x + d.1, p.y + d.2⟩) ∧ inInner size q

/-- `reach2 size p q`: `q` is reachable from `p` by two-cell lattice jumps
staying inside the inner bounds. -/
def reach2 (size : Nat) : Position → Position → Prop :=
  Relation.ReflTransGen (step2 size)

/-- A fully processed (dead-ended) cell of the random walk: every in-bounds
lattice jump from it lands on a visited cell, and the walk's target is not
one jump away (otherwise `getValidNeighbors` would still offer the target). -/
def processed (size : Nat) (visited : Finset Position) (target p : Position) :
    Prop :=
  ∀ q, step2 size p q → q ∈ visited ∧ q ≠ target

/-- Two cells are grid-adjacent (consecutive cells of a carved corridor). -/
def adj (p q : Position) : Prop := manhattanDistance p q = 1

/-- The loop invariant of `walkGo`.  The path is a nonempty chain of
adjacent inner cells from `start` to `current`, every path cell is visited,
and every visited cell no longer on the path has dead-ended. -/
structure WalkInv (size : Nat) (start target : Position) (path : List Position)
    (visited : Finset Position) (current : Position) : Prop where
  head_start : path.head? = some start
  last_current : path.getLast? = some current
  chain : path.Chain' adj
  path_visited : ∀ p ∈ path, p ∈ visited
  path_inner : ∀ p ∈ path, inInner size p
  visited_inner : ∀ p ∈ visited, inInner size p
  popped_processed : ∀ p ∈ visited, p ∉ path → processed size visited target p

/-- The loop invariant of the BFS in `hasPathGo`: queued cells are visited,
and every visited cell that is no longer queued has been dequeued without
being the target and with all of its in-bounds PATH neighbors visited. -/
structure BfsInv (maze : Maze) (target : Position) (visited : Finset Position)
    (queue : List Position) : Prop where
  queue_visited : ∀ p ∈ queue, p ∈ visited
  done_processed : ∀ p ∈ visited, p ∉ queue →
    p ≠ target ∧
    ∀ d ∈ dirs1, ∀ q : Position, q = ⟨p.x + d.1, p.y + d.2⟩ →
      inGrid maze.length q → cellAt? maze q = some .PATH → q ∈ visited

end Aimazing.MazeGen

namespace Aimazing.Fix

/-- 1×1 all-PATH maze. -/
def maze1 : Maze := [[.PATH]]

/-- 2×2 maze: the top row is PATH, the bottom row is WALL. -/
def maze2 : Maze := [[.PATH, .PATH], [.WALL, .WALL]]

/-- A mouse at the origin facing EAST. -/
def mouseA : Srv.Mouse :=
  { name := "A", position := ⟨0, 0⟩, facing := .EAST, explored := {⟨0, 0⟩}, actionHistory := [] }

/-- A mouse at (1,0) facing WEST. -/
def mouseB : Srv.Mouse :=
  { name := "B", position := ⟨1, 0⟩, facing := .WEST, explored := {⟨1, 0⟩}, actionHistory := [] }

/-- A mouse at the origin facing NORTH with nothing explored. -/
def mouseN : Srv.Mouse :=
  { name := "N", position := ⟨0, 0⟩, facing := .NORTH, explored := ∅, actionHistory := [] }

/-- A two-mice server game on `maze2`. -/
def sTwo : Srv.GameState :=
  { maze := maze2, entrance := ⟨0, 0⟩, exit := ⟨1, 0⟩, maxTurns := 5, turn := 0,
    mice := [mouseA, mouseB] }

/-- A one-mouse server game on the 1×1 maze; the cell in front of the mouse
(EAST of the origin) is out of the grid, so a move is blocked. -/
def sOne : Srv.GameState :=
  { maze := maze1, entrance := ⟨0, 0⟩, exit := ⟨0, 0⟩, maxTurns := 5, turn := 0,
    mice := [mouseA] }

/-- A one-mouse server game whose mouse faces NORTH at the origin: the front
cell (0,−1) is out of bounds and is not the exit. -/
def sC6 : Srv.GameState :=
  { maze := maze1, entrance := ⟨0, 0⟩, exit := ⟨0, 0⟩, maxTurns := 5, turn := 0,
    mice := [mouseN] }

/-- The action `{ move: true }`. -/
def moveAct : MouseAction := { turn := none, move := true }

/-- The action `{ turn: 'RIGHT', move: false }`. -/
def turnRightAct : MouseAction := { turn := some .RIGHT, move := false }

/-- A finished game-loop game. -/
def gFinished : Loop.Game :=
  { maze := maze1, entrance := ⟨0, 0⟩, exit := ⟨0, 0⟩, players := [], turn := 3,
    maxTurns := 3, status := .FINISHED, result := some .DRAW }

/-- An empty game-loop game on `maze2`. -/
def gW : Loop.Game := Loop.createGameWithMaze maze2 ⟨0, 0⟩ ⟨1, 0⟩ 5

/-- `gW` after one registered player. -/
def g1fix : Loop.Game := (Loop.addPlayer gW "i1" "A" "p").getD gW

/-- `gW` after both registered players (status PLAYING). -/
def g2fix : Loop.Game := (Loop.addPlayer g1fix "i2" "B" "q").getD gW

/-- The all-zeros oracle. -/
def oZero : MazeGen.Oracle := fun _ => 0

/-- `sTwo` after mouse 0 acts with `moveAct`. -/
def sTwoAfter0 : Srv.GameState := (Srv.applyAction sTwo 0 moveAct).getD sTwo

/-- `sOne` after its mouse attempts the blocked move. -/
def sOneAfter : Srv.GameState := (Srv.applyAction sOne 0 moveAct).getD sOne

/-- Mouse 0 of `sTwoAfter0`. -/
def mouseA2 : Srv.Mouse := (sTwoAfter0.mice.get? 0).getD mouseA

/-- `sTwo` after one full turn of both mice moving. -/
def sTwoTurn1 : Srv.GameState :=
  (Srv.runTurns sTwo [(moveAct, moveAct)]).getD sTwo

/-- Mouse 0 of `sTwoTurn1`. -/
def mouseA3 : Srv.Mouse := (sTwoTurn1.mice.get? 0).getD mouseA

/-- The player registered into `g1fix`. -/
def p1fix : Loop.Player :=
  (g1fix.players.getLast?).getD
    { id := "", name := "", prompt := "",
      mouse := { position := ⟨0, 0⟩, facing := .EAST, explored := ∅, actionHistory := [] } }

/-- The vision snapshot of the mouse of `sC6`. -/
def vC6 : Srv.MouseVision :=
  (Srv.getMouseVision sC6 0).getD
    { position := ⟨0, 0⟩, facing := .NORTH, front := .UNKNOWN, left := .UNKNOWN,
      right := .UNKNOWN, exitVisible := none, opponentVisible := none }

end Aimazing.Fix

namespace Aimazing

/-! ### Shared lemmas about exploration and `applyAction` -/

theorem exploreDirectionGo_subset (maze : Maze) (facing : Facing) :
    ∀ (fuel : Nat) (explored : Finset Position) (pos : Position),
      explored ⊆ exploreDirectionGo maze facing fuel explored pos := by
  intro fuel
  induction fuel with
  | zero => intro ex pos; exact subset_rfl
  | succ n ih =>
    intro ex pos
    show ex ⊆ exploreDirectionGo maze facing (n + 1) ex pos
    rw [exploreDirectionGo]
    split
    · exact subset_rfl
    · split
      · exact Finset.subset_insert _ _
      · exact (Finset.subset_insert _ _).trans (ih _ _)

theorem exploreDirection_subset (maze : Maze) (explored : Finset Position)
    (pos : Position) (facing : Facing) :
    explored ⊆ exploreDirection maze explored pos facing :=
  exploreDirectionGo_subset maze facing _ explored pos

theorem expandExplored_subset (maze : Maze) (pos : Position) (facing : Facing)
    (explored : Finset Position) :
    explored ⊆ expandExplored maze pos facing explored := by
  unfold expandExplored
  exact (Finset.subset_insert _ _).trans
    ((exploreDirection_subset _ _ _ _).trans
      ((exploreDirection_subset _ _ _ _).trans (exploreDirection_subset _ _ _ _)))

theorem srv_applyAction_inv {s s' : Srv.GameState} {i : Nat} {a : MouseAction}
    (h : Srv.applyAction s i a = some s') :
    ∃ m, s.mice.get? i = some m ∧
      s' = { s with mice := s.mice.set i (Srv.appliedMouse s.maze m a) } := by
  unfold Srv.applyAction at h
  match hm : s.mice.get? i with
  | none => rw [hm] at h; cases h
  | some m => rw [hm] at h; exact ⟨m, rfl, (Option.some_inj.mp h).symm⟩

theorem srv_applyAction_of_get {s : Srv.GameState} {i : Nat} {m : Srv.Mouse}
    (a : MouseAction) (hm : s.mice.get? i = some m) :
    Srv.applyAction s i a =
      some { s with mice := s.mice.set i (Srv.appliedMouse s.maze m a) } := by
  unfold Srv.applyAction; rw [hm]

theorem srv_appliedMouse_position (maze : Maze) (m : Srv.Mouse) (a : MouseAction) :
    (Srv.appliedMouse maze m a).position =
      actionPosition maze m.position (actionFacing m.facing a) a := rfl

theorem actionPosition_cases (maze : Maze) (pos : Position) (f : Facing)
    (a : MouseAction) :
    actionPosition maze pos f a = pos ∨
      (inGrid maze.length (actionPosition maze pos f a) ∧
        cellAt? maze (actionPosition maze pos f a) = some .PATH) := by
  unfold actionPosition
  split
  · split
    · next h => exact Or.inr (by simpa using h)
    · exact Or.inl rfl
  · exact Or.inl rfl

theorem actionPosition_blocked (maze : Maze) (pos : Position) (f : Facing)
    (a : MouseAction)
    (h : ¬ inGrid maze.length (getPositionInFront pos f) ∨
      cellAt? maze (getPositionInFront pos f) = some .WALL) :
    actionPosition maze pos f a = pos := by
  unfold actionPosition
  split
  · split
    · next hg =>
      exfalso
      rcases h with h | h
      · exact h hg.1
      · rw [hg.2] at h; cases h
    · rfl
  · rfl

theorem srv_applyAction_get_same {s s' : Srv.GameState} {i : Nat} {a : MouseAction}
    {m : Srv.Mouse} (hm : s.mice.get? i = some m)
    (h : Srv.applyAction s i a = some s') :
    s'.mice.get? i = some (Srv.appliedMouse s.maze m a) := by
  obtain ⟨m', hm', rfl⟩ := srv_applyAction_inv h
  rw [hm] at hm'
  obtain rfl : m = m' := Option.some_inj.mp hm'
  have hlt : i < s.mice.length := by
    rcases List.get?_eq_some.mp hm with ⟨hl, _⟩
    exact hl
  simpa using List.get?_set_eq_of_lt (Srv.appliedMouse s.maze m a) hlt

/-! ### C8: turning is a cyclic rotation group -/

/-- C8: for every facing, four LEFT turns (or four RIGHT turns) are the
identity; LEFT then RIGHT and RIGHT then LEFT are the identity; LEFT follows
the cycle N→W→S→E→N and RIGHT the reverse cycle. -/
theorem turning_rotation_group :
    ∀ f : Facing,
      turnLeft (turnLeft (turnLeft (turnLeft f))) = f ∧
      turnRight (turnRight (turnRight (turnRight f))) = f ∧
      turnRight (turnLeft f) = f ∧
      turnLeft (turnRight f) = f ∧
      turnLeft .NORTH = .WEST ∧ turnLeft .WEST = .SOUTH ∧
      turnLeft .SOUTH = .EAST ∧ turnLeft .EAST = .NORTH ∧
      turnRight .NORTH = .EAST ∧ turnRight .EAST = .SOUTH ∧
      turnRight .SOUTH = .WEST ∧ turnRight .WEST = .NORTH := by
  intro f
  cases f <;> decide

/-! ### C5: a non-PLAYING game rejects `executeTurn` -/

/-- C5: invoking the game-loop `executeTurn` on a game whose status is not
PLAYING fails with an error: no state is produced, so no mouse action is
applied and the turn counter cannot advance — terminal states are
absorbing. -/
theorem executeTurn_nonplaying_rejected (g : Loop.Game) (a0 a1 : MouseAction)
    (h : g.status ≠ .PLAYING) :
    Loop.executeTurn g a0 a1 = none := by
  unfold Loop.executeTurn
  rw [if_pos h]

/-- Witness for C5 at a concrete FINISHED game. -/
theorem executeTurn_nonplaying_rejected_witness :
    Fix.gFinished.status ≠ .PLAYING ∧
    Loop.executeTurn Fix.gFinished Fix.moveAct Fix.moveAct = none :=
  ⟨by decide, executeTurn_nonplaying_rejected _ _ _ (by decide)⟩

/-! ### C9: `applyAction` only changes the acted-on mouse -/

/-- C9: the state returned by the server `applyAction` differs from the
input state only in mouse `i`: the maze, entrance, exit, turn ceiling, turn
counter, the mouse count, and every other mouse are unchanged. -/
theorem applyAction_frame (s s' : Srv.GameState) (i : Nat) (a : MouseAction)
    (h : Srv.applyAction s i a = some s') :
    s'.maze = s.maze ∧ s'.entrance = s.entrance ∧ s'.exit = s.exit ∧
    s'.maxTurns = s.maxTurns ∧ s'.turn = s.turn ∧
    s'.mice.length = s.mice.length ∧
    ∀ j, j ≠ i → s'.mice.get? j = s.mice.get? j := by
  obtain ⟨m, hm, rfl⟩ := srv_applyAction_inv h
  refine ⟨rfl, rfl, rfl, rfl, rfl, by simp, ?_⟩
  intro j hj
  exact List.get?_set_ne _ _ (fun e => hj e.symm)

/-- Witness for C9 at a concrete two-mice state. -/
theorem applyAction_frame_witness :
    Srv.applyAction Fix.sTwo 0 Fix.moveAct = some Fix.sTwoAfter0 ∧
    (Fix.sTwoAfter0.maze = Fix.sTwo.maze ∧
      Fix.sTwoAfter0.entrance = Fix.sTwo.entrance ∧
      Fix.sTwoAfter0.exit = Fix.sTwo.exit ∧
      Fix.sTwoAfter0.maxTurns = Fix.sTwo.maxTurns ∧
      Fix.sTwoAfter0.turn = Fix.sTwo.turn ∧
      Fix.sTwoAfter0.mice.length = Fix.sTwo.mice.length ∧
      ∀ j, j ≠ 0 → Fix.sTwoAfter0.mice.get? j = Fix.sTwo.mice.get? j) :=
  ⟨by decide, applyAction_frame Fix.sTwo Fix.sTwoAfter0 0 Fix.moveAct (by decide)⟩

/-! ### C2: `applyAction` never moves onto a wall or off-grid -/

/-- C2: for every state, valid mouse index and action, `applyAction` either
leaves the position unchanged or moves onto an in-grid PATH cell (never onto
a WALL, never off-grid); when the cell in front after the optional turn is a
WALL or out of bounds, the position is unchanged, but the action is still
appended to the mouse's `actionHistory` and the line-of-sight exploration is
still re-run from the resulting position and facing. -/
theorem applyAction_wall_safety (s : Srv.GameState) (i : Nat) (a : MouseAction)
    (m : Srv.Mouse) (hm : s.mice.get? i = some m) :
    ∃ s' m', Srv.applyAction s i a = some s' ∧ s'.mice.get? i = some m' ∧
      m'.facing = actionFacing m.facing a ∧
      (m'.position = m.position ∨
        (inGrid s.maze.length m'.position ∧
          cellAt? s.maze m'.position = some .PATH)) ∧
      ((¬ inGrid s.maze.length
            (getPositionInFront m.position (actionFacing m.facing a)) ∨
          cellAt? s.maze
            (getPositionInFront m.position (actionFacing m.facing a)) =
            some .WALL) →
        m'.position = m.position) ∧
      m'.actionHistory = m.actionHistory ++ [a] ∧
      m'.explored = expandExplored s.maze m'.position m'.facing m.explored := by
  refine ⟨_, Srv.appliedMouse s.maze m a, srv_applyAction_of_get a hm,
    srv_applyAction_get_same hm (srv_applyAction_of_get a hm), rfl, ?_, ?_, rfl, rfl⟩
  · exact actionPosition_cases s.maze m.position (actionFacing m.facing a) a
  · intro hblock
    exact actionPosition_blocked s.maze m.position (actionFacing m.facing a) a hblock

/-- Witness for C2: on the 1×1 maze the cell east of the origin is off-grid,
so the move is blocked. -/
theorem applyAction_wall_safety_witness :
    Fix.sOne.mice.get? 0 = some Fix.mouseA ∧
    (∃ s' m', Srv.applyAction Fix.sOne 0 Fix.moveAct = some s' ∧
      s'.mice.get? 0 = some m' ∧
      m'.facing = actionFacing Fix.mouseA.facing Fix.moveAct ∧
      (m'.position = Fix.mouseA.position ∨
        (inGrid Fix.sOne.maze.length m'.position ∧
          cellAt? Fix.sOne.maze m'.position = some .PATH)) ∧
      ((¬ inGrid Fix.sOne.maze.length
            (getPositionInFront Fix.mouseA.position
              (actionFacing Fix.mouseA.facing Fix.moveAct)) ∨
          cellAt? Fix.sOne.maze
            (getPositionInFront Fix.mouseA.position
              (actionFacing Fix.mouseA.facing Fix.moveAct)) =
            some .WALL) →
        m'.position = Fix.mouseA.position) ∧
      m'.actionHistory = Fix.mouseA.actionHistory ++ [Fix.moveAct] ∧
      m'.explored =
        expandExplored Fix.sOne.maze m'.position m'.facing Fix.mouseA.explored) :=
  ⟨by decide, applyAction_wall_safety Fix.sOne 0 Fix.moveAct Fix.mouseA (by decide)⟩

/-! ### C1: `executeTurn` applies both actions, then increments, then evaluates -/

theorem srv_applyAction_length {s s' : Srv.GameState} {i : Nat} {a : MouseAction}
    (h : Srv.applyAction s i a = some s') : s'.mice.length = s.mice.length := by
  obtain ⟨m, _, rfl⟩ := srv_applyAction_inv h
  simp

/-- C1: with exactly two mice, `executeTurn` first applies mouse 0's action,
then mouse 1's action, then increments the turn counter by one, and only
then evaluates the end condition jointly on the resulting state (both at
exit → DRAW; exactly one → CREATOR_WIN / OPPONENT_WIN; turn ceiling reached
→ DRAW; otherwise PLAYING). -/
theorem executeTurn_both_move_then_evaluate (s : Srv.GameState)
    (a0 a1 : MouseAction) (h2 : s.mice.length = 2) :
    ∃ s1 s2, Srv.applyAction s 0 a0 = some s1 ∧
      Srv.applyAction s1 1 a1 = some s2 ∧
      s2.turn = s.turn ∧
      Srv.executeTurn s a0 a1 =
        some ({ s2 with turn := s2.turn + 1 },
          Srv.endStatus { s2 with turn := s2.turn + 1 }) := by
  obtain ⟨m0, m1, hs⟩ := List.length_eq_two.mp h2
  have hget0 : s.mice.get? 0 = some m0 := by rw [hs]; rfl
  have h1 : Srv.applyAction s 0 a0 =
      some { s with mice := s.mice.set 0 (Srv.appliedMouse s.maze m0 a0) } :=
    srv_applyAction_of_get a0 hget0
  set s1 : Srv.GameState :=
    { s with mice := s.mice.set 0 (Srv.appliedMouse s.maze m0 a0) } with hs1
  have hmice1 : s1.mice = [Srv.appliedMouse s.maze m0 a0, m1] := by
    rw [hs1, hs]; rfl
  have hget1 : s1.mice.get? 1 = some m1 := by rw [hmice1]; rfl
  have hApp2 : Srv.applyAction s1 1 a1 =
      some { s1 with mice := s1.mice.set 1 (Srv.appliedMouse s1.maze m1 a1) } :=
    srv_applyAction_of_get a1 hget1
  set s2 : Srv.GameState :=
    { s1 with mice := s1.mice.set 1 (Srv.appliedMouse s1.maze m1 a1) } with hs2
  have hmice2 : s2.mice =
      [Srv.appliedMouse s.maze m0 a0, Srv.appliedMouse s1.maze m1 a1] := by
    rw [hs2, hmice1]; rfl
  refine ⟨s1, s2, h1, hApp2, rfl, ?_⟩
  unfold Srv.executeTurn
  rw [if_neg (by rw [h2]; exact fun hc => hc rfl)]
  rw [h1]
  dsimp only
  rw [hApp2]
  dsimp only
  rw [hs]
  dsimp only [List.set]
  unfold Srv.endStatus Srv.atExit
  simp

/-- Witness for C1 at a concrete two-mice state. -/
theorem executeTurn_both_move_then_evaluate_witness :
    Fix.sTwo.mice.length = 2 ∧
    (∃ s1 s2, Srv.applyAction Fix.sTwo 0 Fix.moveAct = some s1 ∧
      Srv.applyAction s1 1 Fix.moveAct = some s2 ∧
      s2.turn = Fix.sTwo.turn ∧
      Srv.executeTurn Fix.sTwo Fix.moveAct Fix.moveAct =
        some ({ s2 with turn := s2.turn + 1 },
          Srv.endStatus { s2 with turn := s2.turn + 1 })) :=
  ⟨by decide, executeTurn_both_move_then_evaluate Fix.sTwo Fix.moveAct Fix.moveAct (by decide)⟩

/-! ### C3: exploration is monotonic -/

theorem srv_executeTurn_inv {s s' : Srv.GameState} {a0 a1 : MouseAction}
    {st : Srv.GameStatus} (h : Srv.executeTurn s a0 a1 = some (s', st)) :
    ∃ s1 s2, Srv.applyAction s 0 a0 = some s1 ∧
      Srv.applyAction s1 1 a1 = some s2 ∧
      s' = { s2 with turn := s2.turn + 1 } := by
  unfold Srv.executeTurn at h
  by_cases hl : s.mice.length ≠ 2
  · rw [if_pos hl] at h; cases h
  · rw [if_neg hl] at h
    push_neg at hl
    match hA : Srv.applyAction s 0 a0 with
    | none => rw [hA] at h; cases h
    | some s1 =>
      rw [hA] at h
      dsimp only at h
      match hB : Srv.applyAction s1 1 a1 with
      | none => rw [hB] at h; cases h
      | some s2 =>
        rw [hB] at h
        dsimp only at h
        have hl2 : s2.mice.length = 2 := by
          rw [srv_applyAction_length hB, srv_applyAction_length hA, hl]
        obtain ⟨x, y, hxy⟩ := List.length_eq_two.mp hl2
        rw [show ({ s2 with turn := s2.turn + 1 } : Srv.GameState).mice = [x, y] from hxy] at h
        dsimp only at h
        refine ⟨s1, s2, rfl, hB, ?_⟩
        have hfst : ({ s2 with turn := s2.turn + 1, mice := [x, y] } : Srv.GameState) = s' :=
          congrArg Prod.fst (Option.some_inj.mp h)
        rw [← hfst, ← hxy]

theorem srv_applyAction_explored_mono {s s' : Srv.GameState} {i : Nat}
    {a : MouseAction} (h : Srv.applyAction s i a = some s') :
    ∀ j m m', s.mice.get? j = some m → s'.mice.get? j = some m' →
      m.explored ⊆ m'.explored := by
  obtain ⟨mm, hmm, rfl⟩ := srv_applyAction_inv h
  intro j m m' hj hj'
  by_cases hij : j = i
  · subst hij
    rw [hmm] at hj
    have hmmm : mm = m := Option.some_inj.mp hj
    have hlt : j < s.mice.length := (List.get?_eq_some.mp hmm).1
    rw [List.get?_set_eq_of_lt _ hlt] at hj'
    have hm' : Srv.appliedMouse s.maze mm a = m' := Option.some_inj.mp hj'
    rw [← hm', ← hmmm]
    exact expandExplored_subset _ _ _ _
  · rw [List.get?_set_ne _ _ (fun e => hij e.symm), hj] at hj'
    rw [Option.some_inj.mp hj']

theorem srv_executeTurn_length {s s' : Srv.GameState} {a0 a1 : MouseAction}
    {st : Srv.GameStatus} (h : Srv.executeTurn s a0 a1 = some (s', st)) :
    s'.mice.length = s.mice.length := by
  obtain ⟨s1, s2, h1, h2, rfl⟩ := srv_executeTurn_inv h
  show s2.mice.length = s.mice.length
  rw [srv_applyAction_length h2, srv_applyAction_length h1]

theorem srv_executeTurn_explored_mono {s s' : Srv.GameState}
    {a0 a1 : MouseAction} {st : Srv.GameStatus}
    (h : Srv.executeTurn s a0 a1 = some (s', st)) :
    ∀ j m m', s.mice.get? j = some m → s'.mice.get? j = some m' →
      m.explored ⊆ m'.explored := by
  obtain ⟨s1, s2, h1, h2, rfl⟩ := srv_executeTurn_inv h
  intro j m m' hj hj'
  have hj2 : s2.mice.get? j = some m' := hj'
  have hlt : j < s.mice.length := (List.get?_eq_some.mp hj).1
  have hlt1 : j < s1.mice.length := by rw [srv_applyAction_length h1]; exact hlt
  obtain ⟨m1, hm1⟩ : ∃ m1, s1.mice.get? j = some m1 := by
    rw [List.get?_eq_get hlt1]; exact ⟨_, rfl⟩
  exact (srv_applyAction_explored_mono h1 j m m1 hj hm1).trans
    (srv_applyAction_explored_mono h2 j m1 m' hm1 hj2)

theorem srv_runTurns_explored_mono :
    ∀ (acts : List (MouseAction × MouseAction)) (s s' : Srv.GameState),
      Srv.runTurns s acts = some s' →
      ∀ j m m', s.mice.get? j = some m → s'.mice.get? j = some m' →
        m.explored ⊆ m'.explored := by
  intro acts
  induction acts with
  | nil =>
    intro s s' h j m m' hj hj'
    obtain rfl : s = s' := Option.some_inj.mp h
    rw [hj] at hj'
    obtain rfl : m = m' := Option.some_inj.mp hj'
    exact subset_rfl
  | cons p t ih =>
    intro s s' h j m m' hj hj'
    obtain ⟨a0, a1⟩ := p
    unfold Srv.runTurns at h
    match hE : Srv.executeTurn s a0 a1 with
    | none => rw [hE] at h; cases h
    | some (sM, stM) =>
      rw [hE] at h
      dsimp only at h
      have hlt : j < s.mice.length := (List.get?_eq_some.mp hj).1
      have hltM : j < sM.mice.length := by rw [srv_executeTurn_length hE]; exact hlt
      obtain ⟨mM, hmM⟩ : ∃ mM, sM.mice.get? j = some mM := by
        rw [List.get?_eq_get hltM]; exact ⟨_, rfl⟩
      exact (srv_executeTurn_explored_mono hE j m mM hj hmM).trans
        (ih sM s' h j mM m' hmM hj')

theorem loop_addPlayer_inv {g g' : Loop.Game} {pid n pr : String}
    (h : Loop.addPlayer g pid n pr = some g') :
    g' = { g with
      players := g.players ++
        [{ id := pid, name := n, prompt := pr,
           mouse :=
             { position := g.entrance, facing := .EAST,
               explored := expandExplored g.maze g.entrance .EAST {g.entrance},
               actionHistory := [] } }]
      status := if (g.players ++
          [({ id := pid, name := n, prompt := pr,
              mouse :=
                { position := g.entrance, facing := .EAST,
                  explored := expandExplored g.maze g.entrance .EAST {g.entrance},
                  actionHistory := [] } } : Loop.Player)]).length = 2
        then .PLAYING else .WAITING } := by
  unfold Loop.addPlayer at h
  split at h
  · cases h
  · split at h
    · cases h
    · exact (Option.some_inj.mp h).symm

/-- C3: exploration is monotonic.  (1) `expandExplored` only ever adds
cells; (2) across the server `applyAction`, every mouse's explored set only
grows; (3) across any sequence of executed turns, every mouse's explored set
only grows; (4) the initial placement cast of a newly registered player
starts from the seeded entrance singleton, which it can only extend. -/
theorem exploration_monotonic :
    (∀ (maze : Maze) (pos : Position) (f : Facing) (ex : Finset Position),
        ex ⊆ expandExplored maze pos f ex) ∧
    (∀ (s s' : Srv.GameState) (i : Nat) (a : MouseAction),
        Srv.applyAction s i a = some s' →
        ∀ j m m', s.mice.get? j = some m → s'.mice.get? j = some m' →
          m.explored ⊆ m'.explored) ∧
    (∀ (acts : List (MouseAction × MouseAction)) (s s' : Srv.GameState),
        Srv.runTurns s acts = some s' →
        ∀ j m m', s.mice.get? j = some m → s'.mice.get? j = some m' →
          m.explored ⊆ m'.explored) ∧
    (∀ (g g' : Loop.Game) (pid n pr : String),
        Loop.addPlayer g pid n pr = some g' →
        ∀ pl, g'.players.getLast? = some pl →
          ({g.entrance} : Finset Position) ⊆ pl.mouse.explored) := by
  refine ⟨expandExplored_subset, fun s s' i a h => srv_applyAction_explored_mono h,
    srv_runTurns_explored_mono, ?_⟩
  intro g g' pid n pr h pl hpl
  rw [loop_addPlayer_inv h] at hpl
  dsimp only at hpl
  rw [List.getLast?_concat] at hpl
  obtain rfl := Option.some_inj.mp hpl.symm
  dsimp only
  intro q hq
  rw [Finset.mem_singleton] at hq
  subst hq
  exact expandExplored_subset _ _ _ _ (Finset.mem_singleton_self _)

/-- Witness for C3 at concrete states: one `expandExplored` call, one
`applyAction`, one full executed turn, and one registered player. -/
theorem exploration_monotonic_witness :
    (({⟨0, 0⟩} : Finset Position) ⊆
      expandExplored Fix.maze2 ⟨0, 0⟩ .EAST {⟨0, 0⟩}) ∧
    (Srv.applyAction Fix.sTwo 0 Fix.moveAct = some Fix.sTwoAfter0 ∧
      Fix.sTwo.mice.get? 0 = some Fix.mouseA ∧
      Fix.sTwoAfter0.mice.get? 0 = some Fix.mouseA2 ∧
      Fix.mouseA.explored ⊆ Fix.mouseA2.explored) ∧
    (Srv.runTurns Fix.sTwo [(Fix.moveAct, Fix.moveAct)] = some Fix.sTwoTurn1 ∧
      Fix.sTwoTurn1.mice.get? 0 = some Fix.mouseA3 ∧
      Fix.mouseA.explored ⊆ Fix.mouseA3.explored) ∧
    (Loop.addPlayer Fix.gW "i1" "A" "p" = some Fix.g1fix ∧
      Fix.g1fix.players.getLast? = some Fix.p1fix ∧
      ({Fix.gW.entrance} : Finset Position) ⊆ Fix.p1fix.mouse.explored) := by
  refine ⟨exploration_monotonic.1 Fix.maze2 ⟨0, 0⟩ .EAST {⟨0, 0⟩},
    ⟨by decide, by decide, by decide, ?_⟩, ⟨by decide, by decide, ?_⟩,
    ⟨by decide, by decide, ?_⟩⟩
  · exact exploration_monotonic.2.1 Fix.sTwo Fix.sTwoAfter0 0 Fix.moveAct
      (by decide) 0 Fix.mouseA Fix.mouseA2 (by decide) (by decide)
  · exact exploration_monotonic.2.2.1 [(Fix.moveAct, Fix.moveAct)] Fix.sTwo
      Fix.sTwoTurn1 (by decide) 0 Fix.mouseA Fix.mouseA3 (by decide) (by decide)
  · exact exploration_monotonic.2.2.2 Fix.gW Fix.g1fix "i1" "A" "p"
      (by decide) _ (by decide)

/-! ### C6: vision-entry classification (corrected: out-of-bounds reads UNKNOWN) -/

/-- Counterexample to C6 as stated: in `sC6` the cell in front of the mouse
is out of bounds and not the exit, yet the vision snapshot classifies it as
UNKNOWN, not as a wall. -/
theorem vision_oob_unknown_cex :
    (Srv.getMouseVision Fix.sC6 0).map Srv.MouseVision.front =
      some Srv.VisionCell.UNKNOWN ∧
    (Srv.getMouseVision Fix.sC6 0).map Srv.MouseVision.front ≠
      some Srv.VisionCell.WALL ∧
    ¬ inGrid Fix.sC6.maze.length
      (getPositionInFront Fix.mouseN.position Fix.mouseN.facing) ∧
    getPositionInFront Fix.mouseN.position Fix.mouseN.facing ≠ Fix.sC6.exit := by
  decide

theorem srv_headD_length (s : Srv.GameState)
    (hsq : ∀ row ∈ s.maze, row.length = s.maze.length) :
    (s.maze.headD []).length = s.maze.length := by
  match hm : s.maze with
  | [] => rfl
  | r :: t =>
    show r.length = (r :: t).length
    have := hsq r (by rw [hm]; exact List.mem_cons_self r t)
    rw [hm] at this
    exact this

theorem srv_getCell_eq_classify (s : Srv.GameState) (ex : Finset Position)
    (p : Position) (hsq : ∀ row ∈ s.maze, row.length = s.maze.length) :
    Srv.getCell s ex p = Srv.classifyCell s ex p := by
  unfold Srv.getCell Srv.classifyCell
  by_cases hexit : p = s.exit
  · rw [if_pos hexit, if_pos hexit]
  · rw [if_neg hexit, if_neg hexit]
    have hbounds : (0 ≤ p.y ∧ p.y < (s.maze.length : Int) ∧
        0 ≤ p.x ∧ p.x < (((s.maze.headD []).length : Nat) : Int)) ↔
        inGrid s.maze.length p := by
      rw [srv_headD_length s hsq]
      unfold inGrid
      constructor
      · rintro ⟨a, b, c, d⟩; exact ⟨c, d, a, b⟩
      · rintro ⟨a, b, c, d⟩; exact ⟨c, d, a, b⟩
    by_cases hex : p ∈ ex
    · rw [if_neg (by simp [hex])]
      by_cases hg : inGrid s.maze.length p
      · rw [if_pos (hbounds.mpr hg), if_neg (by simpa using hg), if_neg (by simp [hex])]
      · rw [if_neg (fun hc => hg (hbounds.mp hc)), if_pos (by simpa using hg)]
    · rw [if_pos (by simpa using hex)]
      by_cases hg : inGrid s.maze.length p
      · rw [if_neg (by simpa using hg), if_pos (by simpa using hex)]
      · rw [if_pos (by simpa using hg)]

/-- C6 (amended): for every square-grid state and valid mouse index, each
front/left/right entry of the vision snapshot is classified as: the exit
coordinate as exit; an out-of-bounds cell as unknown (never wall); any other
cell not in the mouse's explored set as unknown; and an explored in-bounds
cell as its maze cell type. -/
theorem vision_classification (s : Srv.GameState) (i : Nat) (m : Srv.Mouse)
    (v : Srv.MouseVision)
    (hsq : ∀ row ∈ s.maze, row.length = s.maze.length)
    (hm : s.mice.get? i = some m) (hv : Srv.getMouseVision s i = some v) :
    v.front = Srv.classifyCell s m.explored
      (getPositionInFront m.position m.facing) ∧
    v.left = Srv.classifyCell s m.explored
      (getPositionInFront m.position (turnLeft m.facing)) ∧
    v.right = Srv.classifyCell s m.explored
      (getPositionInFront m.position (turnRight m.facing)) := by
  unfold Srv.getMouseVision at hv
  rw [hm] at hv
  dsimp only at hv
  obtain rfl := Option.some_inj.mp hv.symm
  refine ⟨?_, ?_, ?_⟩ <;> exact srv_getCell_eq_classify s m.explored _ hsq

/-- Witness for the amended C6 at the concrete state `sC6`. -/
theorem vision_classification_witness :
    (∀ row ∈ Fix.sC6.maze, row.length = Fix.sC6.maze.length) ∧
    Fix.sC6.mice.get? 0 = some Fix.mouseN ∧
    Srv.getMouseVision Fix.sC6 0 = some Fix.vC6 ∧
    (Fix.vC6.front = Srv.classifyCell Fix.sC6 Fix.mouseN.explored
        (getPositionInFront Fix.mouseN.position Fix.mouseN.facing) ∧
      Fix.vC6.left = Srv.classifyCell Fix.sC6 Fix.mouseN.explored
        (getPositionInFront Fix.mouseN.position (turnLeft Fix.mouseN.facing)) ∧
      Fix.vC6.right = Srv.classifyCell Fix.sC6 Fix.mouseN.explored
        (getPositionInFront Fix.mouseN.position (turnRight Fix.mouseN.facing))) :=
  ⟨by decide, by decide, by decide,
    vision_classification Fix.sC6 0 Fix.mouseN Fix.vC6 (by decide) (by decide) (by decide)⟩

/-! ### C10: action-history length equals the turn counter -/

theorem loop_applyAction_inv {g g' : Loop.Game} {i : Nat} {a : MouseAction}
    (h : Loop.applyAction g i a = some g') :
    ∃ pl, g.players.get? i = some pl ∧
      g' = { g with players :=
        g.players.set i { pl with mouse := Loop.appliedMouse g.maze pl.mouse a } } := by
  unfold Loop.applyAction at h
  match hp : g.players.get? i with
  | none => rw [hp] at h; cases h
  | some pl => rw [hp] at h; exact ⟨pl, rfl, (Option.some_inj.mp h).symm⟩

theorem option_ite_some_inv {α : Type} (c : Prop) [Decidable c] (A B x : α)
    (h : (if c then some A else some B) = some x) : x = A ∨ x = B := by
  split at h
  · exact Or.inl (Option.some_inj.mp h).symm
  · exact Or.inr (Option.some_inj.mp h).symm

theorem loop_checkGameEnd_frame {g g' : Loop.Game}
    (h : Loop.checkGameEnd g = some g') :
    g'.players = g.players ∧ g'.turn = g.turn := by
  unfold Loop.checkGameEnd at h
  split at h
  · obtain rfl := Option.some_inj.mp h.symm; exact ⟨rfl, rfl⟩
  · match hp : g.players with
    | [p1, p2] =>
      rw [hp] at h
      dsimp only at h
      rcases option_ite_some_inv _ _ _ _ h with rfl | rfl
      · exact ⟨rfl, rfl⟩
      · exact ⟨hp, rfl⟩
    | [] => rw [hp] at h; cases h
    | [p] => rw [hp] at h; cases h
    | p1 :: p2 :: p3 :: t => rw [hp] at h; cases h

/-- C10: in every game reachable by creating a game, adding both players,
and repeatedly executing turns, each registered player's mouse has an
`actionHistory` whose length equals the turn counter (each `executeTurn`
appends exactly one action per mouse and increments the counter by one). -/
theorem history_length_eq_turn (g : Loop.Game) (hg : Loop.Reachable g) :
    ∀ pl ∈ g.players, pl.mouse.actionHistory.length = g.turn := by
  induction hg with
  | created maze entrance exit_ maxTurns pid1 n1 pr1 pid2 n2 pr2 g1 g2 h1 h2 =>
    rw [loop_addPlayer_inv h2, loop_addPlayer_inv h1]
    intro pl hpl
    dsimp only [Loop.createGameWithMaze] at hpl ⊢
    rw [List.mem_append, List.mem_append] at hpl
    rcases hpl with (hpl | hpl) | hpl
    · cases hpl
    · rw [List.mem_singleton] at hpl; subst hpl; rfl
    · rw [List.mem_singleton] at hpl; subst hpl; rfl
  | step g g' a0 a1 hr h ih =>
    unfold Loop.executeTurn at h
    split at h
    · cases h
    · split at h
      · cases h
      · next hlen =>
        push_neg at hlen
        obtain ⟨q0, q1, hq⟩ := List.length_eq_two.mp hlen
        match hA : Loop.applyAction g 0 a0 with
        | none => rw [hA] at h; cases h
        | some gA =>
          rw [hA] at h
          dsimp only at h
          match hB : Loop.applyAction gA 1 a1 with
          | none => rw [hB] at h; cases h
          | some gB =>
            rw [hB] at h
            dsimp only at h
            obtain ⟨p0, hp0, hgA⟩ := loop_applyAction_inv hA
            have hp0q : p0 = q0 := by
              rw [hq] at hp0
              exact (Option.some_inj.mp hp0).symm
            have hgAp : gA.players =
                [{ p0 with mouse := Loop.appliedMouse g.maze p0.mouse a0 }, q1] := by
              rw [hgA]
              dsimp only
              rw [hq, hp0q]
              rfl
            obtain ⟨p1, hp1, hgB⟩ := loop_applyAction_inv hB
            have hp1q : p1 = q1 := by
              rw [hgAp] at hp1
              exact (Option.some_inj.mp hp1).symm
            have hgBp : gB.players =
                [{ p0 with mouse := Loop.appliedMouse g.maze p0.mouse a0 },
                 { p1 with mouse := Loop.appliedMouse gA.maze p1.mouse a1 }] := by
              rw [hgB]
              dsimp only
              rw [hgAp, hp1q]
              rfl
            have hgAt : gA.turn = g.turn := by rw [hgA]
            have hgBt : gB.turn = g.turn := by
              rw [hgB]
              dsimp only
              exact hgAt
            obtain ⟨hfp, hft⟩ := loop_checkGameEnd_frame h
            intro pl hpl
            rw [hfp] at hpl
            dsimp only at hpl
            rw [hgBp] at hpl
            rw [hft]
            dsimp only
            rw [hgBt]
            rcases List.mem_pair.mp hpl with rfl | rfl
            · dsimp only [Loop.appliedMouse]
              rw [List.length_append]
              have h0 : p0 ∈ g.players := by
                rw [hq, hp0q]
                exact List.mem_cons_self _ _
              rw [ih p0 h0]
              rfl
            · dsimp only [Loop.appliedMouse]
              rw [List.length_append]
              have h1 : p1 ∈ g.players := by
                rw [hq, hp1q]
                exact List.mem_cons_of_mem _ (List.mem_cons_self _ _)
              rw [ih p1 h1]
              rfl

/-- Witness for C10 at a concrete reachable game with both players
registered. -/
theorem history_length_eq_turn_witness :
    Loop.Reachable Fix.g2fix ∧
    ∀ pl ∈ Fix.g2fix.players, pl.mouse.actionHistory.length = Fix.g2fix.turn := by
  have hr : Loop.Reachable Fix.g2fix :=
    Loop.Reachable.created Fix.maze2 ⟨0, 0⟩ ⟨1, 0⟩ 5 "i1" "A" "p" "i2" "B" "q"
      Fix.g1fix Fix.g2fix (by decide) (by decide)
  exact ⟨hr, history_length_eq_turn Fix.g2fix hr⟩

/-! ### C7: default turn ceiling (corrected: the game-loop default is 200) -/

/-- Counterexample to C7 as stated: when the caller of the game-loop
`runGame` specifies neither a maze size nor a turn ceiling, the merged
`DEFAULT_CONFIG` yields size 15 and `maxTurns` 200, and the created game
carries `maxTurns = 200`, not `floor(15² / 2) = 112`. -/
theorem default_maxTurns_cex :
    (Loop.createGame (GL.effMazeSize none) (GL.effMaxTurns none) Fix.oZero).map
        Loop.Game.maxTurns = some 200 ∧
    some 200 ≠ some (GL.effMazeSize none * GL.effMazeSize none / 2) := by
  constructor
  · decide
  · decide

/-- C7 (amended): the server `createGameState` defaults an unspecified turn
ceiling to `floor(size²/2)`; the game-loop `runGame` instead fills in the
`DEFAULT_CONFIG` value 200, which `createGame` copies into the game
unchanged (the CLI passes `floor(size²/2)` explicitly itself). -/
theorem default_maxTurns_amended :
    (∀ (size : Nat) (p : Srv.MazePreview),
        (Srv.createGameState size none p).maxTurns = size * size / 2) ∧
    GL.effMaxTurns none = 200 ∧
    (∀ (size mt : Nat) (o : MazeGen.Oracle) (g : Loop.Game),
        Loop.createGame size mt o = some g → g.maxTurns = mt) := by
  refine ⟨fun size p => rfl, rfl, ?_⟩
  intro size mt o g hg
  unfold Loop.createGame at hg
  match hr : MazeGen.generateMaze size o with
  | none => rw [hr] at hg; cases hg
  | some r =>
    rw [hr] at hg
    obtain rfl := Option.some_inj.mp hg.symm
    rfl

/-- Witness for the amended C7 at concrete inputs. -/
theorem default_maxTurns_amended_witness :
    (Srv.createGameState 15 none ⟨Fix.maze1, ⟨0, 0⟩, ⟨0, 0⟩⟩).maxTurns = 15 * 15 / 2 ∧
    GL.effMaxTurns none = 200 ∧
    (∃ g, Loop.createGame 7 9 Fix.oZero = some g ∧ g.maxTurns = 9) := by
  refine ⟨default_maxTurns_amended.1 15 ⟨Fix.maze1, ⟨0, 0⟩, ⟨0, 0⟩⟩,
    default_maxTurns_amended.2.1, ?_⟩
  have hs : (Loop.createGame 7 9 Fix.oZero).isSome := by decide
  obtain ⟨g, hg⟩ := Option.isSome_iff_exists.mp hs
  exact ⟨g, hg, default_maxTurns_amended.2.2 7 9 Fix.oZero g hg⟩

/-! ### C4, stage 1: characterizations of the generator's helpers -/

namespace MazeGen

theorem mg_foldl_mem_iff {α β : Type} (f : List α → β → List α) (P : β → α → Prop)
    (hf : ∀ acc d x, x ∈ f acc d ↔ x ∈ acc ∨ P d x) :
    ∀ (l : List β) (acc : List α) (x : α),
      x ∈ l.foldl f acc ↔ x ∈ acc ∨ ∃ d ∈ l, P d x := by
  intro l
  induction l with
  | nil => intro acc x; simp
  | cons d t ih =>
    intro acc x
    rw [List.foldl_cons, ih, hf]
    simp only [List.mem_cons]
    constructor
    · rintro ((h | h) | ⟨d2, hd2, h⟩)
      · exact Or.inl h
      · exact Or.inr ⟨d, Or.inl rfl, h⟩
      · exact Or.inr ⟨d2, Or.inr hd2, h⟩
    · rintro (h | ⟨d2, (rfl | hd2), h⟩)
      · exact Or.inl (Or.inl h)
      · exact Or.inl (Or.inr h)
      · exact Or.inr ⟨d2, hd2, h⟩

theorem getValidNeighbors_mem (pos : Position) (size : Nat)
    (visited : Finset Position) (target : Position) (n : Position) :
    n ∈ getValidNeighbors pos size visited target ↔
      ∃ d ∈ dirs2, n = (⟨pos.x + d.1, pos.y + d.2⟩ : Position) ∧
        inInner size n ∧ (n ∉ visited ∨ n = target) := by
  unfold getValidNeighbors
  rw [mg_foldl_mem_iff _
    (fun (d : Int × Int) (x : Position) =>
      x = (⟨pos.x + d.1, pos.y + d.2⟩ : Position) ∧
        inInner size x ∧ (x ∉ visited ∨ x = target)) ?hf]
  · simp
  case hf =>
    intro acc d x
    dsimp only
    split_ifs with h1 h2 h3 <;> simp_all [List.mem_append] <;> aesop

end MazeGen

namespace MazeGen

theorem getUnvisitedNeighbors_mem (pos : Position) (size : Nat)
    (visited : Finset Position) (n : Position) :
    n ∈ getUnvisitedNeighbors pos size visited ↔
      ∃ d ∈ dirs2, n = (⟨pos.x + d.1, pos.y + d.2⟩ : Position) ∧
        inInner size n ∧ n ∉ visited := by
  unfold getUnvisitedNeighbors
  rw [mg_foldl_mem_iff _
    (fun (d : Int × Int) (x : Position) =>
      x = (⟨pos.x + d.1, pos.y + d.2⟩ : Position) ∧
        inInner size x ∧ x ∉ visited) ?hf]
  · simp
  case hf =>
    intro acc d x
    dsimp only
    split_ifs with h1 <;> simp_all [List.mem_append] <;> aesop

theorem getValidNeighbors_nil (pos : Position) (size : Nat)
    (visited : Finset Position) (target : Position)
    (h : getValidNeighbors pos size visited target = []) :
    processed size visited target pos := by
  intro q hq
  obtain ⟨⟨d, hd, hqd⟩, hqin⟩ := hq
  by_contra hcon
  push_neg at hcon
  have : q ∈ getValidNeighbors pos size visited target := by
    rw [getValidNeighbors_mem]
    refine ⟨d, hd, hqd, hqin, ?_⟩
    by_cases hv : q ∈ visited
    · exact Or.inr (hcon hv)
    · exact Or.inl hv
  rw [h] at this
  cases this

theorem mg_foldl_choice_mem {α : Type} (P : α → α → Prop) [∀ a b, Decidable (P a b)] :
    ∀ (l : List α) (b : α),
      l.foldl (fun best n => if P best n then n else best) b ∈ b :: l := by
  intro l
  induction l with
  | nil => intro b; exact List.mem_singleton.mpr rfl
  | cons a t ih =>
    intro b
    rw [List.foldl_cons]
    rcases List.mem_cons.mp (ih (if P b a then a else b)) with h | h
    · rw [h]
      split
      · exact List.mem_cons_of_mem _ (List.mem_cons_self _ _)
      · exact List.mem_cons_self _ _
    · exact List.mem_cons_of_mem _ (List.mem_cons_of_mem _ h)

theorem pickClosest_mem (neighbors : List Position) (target : Position)
    (h : neighbors ≠ []) : pickClosest neighbors target ∈ neighbors := by
  match neighbors with
  | [] => exact absurd rfl h
  | a :: t =>
    rcases List.mem_cons.mp
      (mg_foldl_choice_mem
        (fun best n => manhattanDistance n target < manhattanDistance best target)
        (a :: t) a) with hm | hm
    · have h3 : pickClosest (a :: t) target = a := hm
      rw [h3]
      exact List.mem_cons_self _ _
    · exact hm

theorem pickBiasedNeighbor_mem (neighbors : List Position) (target : Position)
    (o : Oracle) (h : neighbors ≠ []) :
    (pickBiasedNeighbor neighbors target o).1 ∈ neighbors := by
  unfold pickBiasedNeighbor
  split
  · exact pickClosest_mem neighbors target h
  · dsimp only
    have hlen : 0 < neighbors.length := List.length_pos.mpr h
    have hlt : o 1 % neighbors.length < neighbors.length := Nat.mod_lt _ hlen
    rw [List.get?_eq_get hlt]
    exact List.get_mem _ _ _

end MazeGen

namespace MazeGen

theorem innerRegion_mem (size : Nat) (p : Position) :
    p ∈ innerRegion size ↔ inInner size p := by
  unfold innerRegion inInner
  simp only [Finset.mem_image, Finset.mem_product, Finset.mem_Icc, Prod.exists]
  constructor
  · rintro ⟨a, b, ⟨⟨ha1, ha2⟩, hb1, hb2⟩, rfl⟩
    dsimp only
    omega
  · rintro ⟨h1, h2, h3, h4⟩
    exact ⟨p.x, p.y, ⟨⟨by omega, by omega⟩, by omega, by omega⟩, rfl⟩

theorem gridRegion_mem (size : Nat) (p : Position) :
    p ∈ gridRegion size ↔ inGrid size p := by
  unfold gridRegion inGrid
  simp only [Finset.mem_image, Finset.mem_product, Finset.mem_Icc, Prod.exists]
  constructor
  · rintro ⟨a, b, ⟨⟨ha1, ha2⟩, hb1, hb2⟩, rfl⟩
    dsimp only
    omega
  · rintro ⟨h1, h2, h3, h4⟩
    exact ⟨p.x, p.y, ⟨⟨by omega, by omega⟩, by omega, by omega⟩, rfl⟩

theorem mk_injective : Function.Injective (fun q : Int × Int => (⟨q.1, q.2⟩ : Position)) := by
  rintro ⟨a1, a2⟩ ⟨b1, b2⟩ h
  cases h
  rfl

theorem innerRegion_card_le (size : Nat) :
    (innerRegion size).card ≤ size * size := by
  unfold innerRegion
  rw [Finset.card_image_of_injective _ mk_injective, Finset.card_product, Int.card_Icc]
  have : ((size : Int) - 2 + 1 - 1).toNat ≤ size := by omega
  exact Nat.mul_le_mul this this

theorem gridRegion_card_le (size : Nat) :
    (gridRegion size).card ≤ size * size := by
  unfold gridRegion
  rw [Finset.card_image_of_injective _ mk_injective, Finset.card_product, Int.card_Icc]
  have : ((size : Int) - 1 + 1 - 0).toNat ≤ size := by omega
  exact Nat.mul_le_mul this this

theorem sdiff_insert2_card_lt (s visited : Finset Position) (a extra : Position)
    (ha : a ∈ s) (hav : a ∉ visited) :
    (s \ insert a (insert extra visited)).card < (s \ visited).card := by
  have hmem : a ∈ s \ visited := Finset.mem_sdiff.mpr ⟨ha, hav⟩
  have hsub : s \ insert a (insert extra visited) ⊆ (s \ visited).erase a := by
    intro q hq
    rw [Finset.mem_sdiff] at hq
    rw [Finset.mem_erase, Finset.mem_sdiff]
    refine ⟨?_, hq.1, ?_⟩
    · intro hqa
      exact hq.2 (hqa ▸ Finset.mem_insert_self _ _)
    · intro hqv
      exact hq.2 (Finset.mem_insert_of_mem (Finset.mem_insert_of_mem hqv))
  calc (s \ insert a (insert extra visited)).card
      ≤ ((s \ visited).erase a).card := Finset.card_le_card hsub
    _ < (s \ visited).card := Finset.card_erase_lt_of_mem hmem

theorem sdiff_card_mono (s : Finset Position) {v1 v2 : Finset Position}
    (h : v1 ⊆ v2) : (s \ v2).card ≤ (s \ v1).card :=
  Finset.card_le_card (Finset.sdiff_subset_sdiff subset_rfl h)

theorem dirs2_between (p n : Position) (d : Int × Int) (hd : d ∈ dirs2)
    (hn : n = (⟨p.x + d.1, p.y + d.2⟩ : Position)) :
    (⟨p.x + (n.x - p.x) / 2, p.y + (n.y - p.y) / 2⟩ : Position) =
      (⟨p.x + d.1 / 2, p.y + d.2 / 2⟩ : Position) := by
  subst hn
  dsimp only
  congr 1 <;> omega

theorem dirs2_cases (d : Int × Int) (hd : d ∈ dirs2) :
    d = (0, -2) ∨ d = (0, 2) ∨ d = (-2, 0) ∨ d = (2, 0) := by
  unfold dirs2 at hd
  simpa using hd

theorem between_adj (p : Position) (d : Int × Int) (hd : d ∈ dirs2) :
    adj p (⟨p.x + d.1 / 2, p.y + d.2 / 2⟩ : Position) ∧
    adj (⟨p.x + d.1 / 2, p.y + d.2 / 2⟩ : Position)
      (⟨p.x + d.1, p.y + d.2⟩ : Position) := by
  rcases dirs2_cases d hd with rfl | rfl | rfl | rfl <;>
    constructor <;>
    · show manhattanDistance _ _ = 1
      unfold manhattanDistance
      dsimp only
      omega

theorem between_inner (size : Nat) (p : Position) (d : Int × Int) (hd : d ∈ dirs2)
    (hp : inInner size p) (hn : inInner size (⟨p.x + d.1, p.y + d.2⟩ : Position)) :
    inInner size (⟨p.x + d.1 / 2, p.y + d.2 / 2⟩ : Position) := by
  obtain ⟨h1, h2, h3, h4⟩ := hp
  obtain ⟨h5, h6, h7, h8⟩ := hn
  rcases dirs2_cases d hd with rfl | rfl | rfl | rfl <;>
    · unfold inInner
      dsimp only at h5 h6 h7 h8 ⊢
      omega

end MazeGen

/-! ### C4, stage 2: the walk cannot dead-end at the start, and reaches the exit -/

namespace MazeGen

theorem processed_closure_false (size : Nat) (start target : Position)
    (visited : Finset Position) (hstart : start ∈ visited)
    (hproc : ∀ p ∈ visited, processed size visited target p)
    (hreach : reach2 size start target) (hne : start ≠ target) : False := by
  have key : ∀ c, reach2 size start c → c ∈ visited ∧ c ≠ target := by
    intro c hc
    induction hc with
    | refl => exact ⟨hstart, hne⟩
    | @tail b c hab hbc ih =>
      exact hproc b ih.1 c hbc
  exact (key target hreach).2 rfl

theorem reach2_xline (size : Nat) (y : Int) :
    ∀ (k : Nat) (x : Int), 0 < x → 0 < y → y < (size : Int) - 1 →
      x + 2 * k < (size : Int) - 1 →
      reach2 size ⟨x, y⟩ ⟨x + 2 * k, y⟩ := by
  intro k
  induction k with
  | zero =>
    intro x _ _ _ _
    exact (by simpa using Relation.ReflTransGen.refl : reach2 size ⟨x, y⟩ ⟨x + 2 * 0, y⟩)
  | succ n ih =>
    intro x hx hy1 hy2 hb
    refine Relation.ReflTransGen.tail (ih x hx hy1 hy2 (by omega)) ?_
    refine ⟨⟨(2, 0), by unfold dirs2; simp, ?_⟩, ?_, ?_, ?_, ?_⟩ <;> dsimp only
    · congr 1 <;> dsimp only <;> omega
    all_goals omega

theorem reach2_yline_up (size : Nat) (x : Int) :
    ∀ (k : Nat) (y : Int), 0 < y → 0 < x → x < (size : Int) - 1 →
      y + 2 * k < (size : Int) - 1 →
      reach2 size ⟨x, y⟩ ⟨x, y + 2 * k⟩ := by
  intro k
  induction k with
  | zero =>
    intro y _ _ _ _
    exact (by simpa using Relation.ReflTransGen.refl : reach2 size ⟨x, y⟩ ⟨x, y + 2 * 0⟩)
  | succ n ih =>
    intro y hy hx1 hx2 hb
    refine Relation.ReflTransGen.tail (ih y hy hx1 hx2 (by omega)) ?_
    refine ⟨⟨(0, 2), by unfold dirs2; simp, ?_⟩, ?_, ?_, ?_, ?_⟩ <;> dsimp only
    · congr 1 <;> dsimp only <;> omega
    all_goals omega

theorem reach2_yline_down (size : Nat) (x : Int) :
    ∀ (k : Nat) (y : Int), 0 < y → 0 < x → x < (size : Int) - 1 →
      y + 2 * k < (size : Int) - 1 →
      reach2 size ⟨x, y + 2 * k⟩ ⟨x, y⟩ := by
  intro k
  induction k with
  | zero =>
    intro y _ _ _ _
    exact (by simpa using Relation.ReflTransGen.refl : reach2 size ⟨x, y + 2 * 0⟩ ⟨x, y⟩)
  | succ n ih =>
    intro y hy hx1 hx2 hb
    refine Relation.ReflTransGen.head ?_ (ih y hy hx1 hx2 (by omega))
    refine ⟨⟨(0, -2), by unfold dirs2; simp, ?_⟩, ?_, ?_, ?_, ?_⟩ <;> dsimp only
    · congr 1 <;> dsimp only <;> omega
    all_goals omega

theorem reach2_entrance_exit (size : Nat) (hsize : 7 ≤ size) (hodd : size % 2 = 1)
    (ys yt : Int) (hys1 : 1 ≤ ys) (hys2 : ys ≤ (size : Int) - 2)
    (hyt1 : 1 ≤ yt) (hyt2 : yt ≤ (size : Int) - 2)
    (hpar : (yt - ys) % 2 = 0) :
    reach2 size ⟨1, ys⟩ ⟨(size : Int) - 2, yt⟩ := by
  have hx : reach2 size ⟨1, ys⟩ ⟨(size : Int) - 2, ys⟩ := by
    have hk := reach2_xline size ys ((size - 3) / 2) 1 (by omega) (by omega) (by omega)
    have hcast : (1 : Int) + 2 * (((size - 3) / 2 : Nat) : Int) = (size : Int) - 2 := by
      omega
    rw [hcast] at hk
    exact hk (by omega)
  refine hx.trans ?_
  by_cases hle : ys ≤ yt
  · have hk := reach2_yline_up size ((size : Int) - 2) (((yt - ys) / 2).toNat) ys
      (by omega) (by omega) (by omega)
    have hcast : ys + 2 * ((((yt - ys) / 2).toNat : Int)) = yt := by omega
    rw [hcast] at hk
    exact hk (by omega)
  · have hk := reach2_yline_down size ((size : Int) - 2) (((ys - yt) / 2).toNat) yt
      (by omega) (by omega) (by omega)
    have hcast : yt + 2 * ((((ys - yt) / 2).toNat : Int)) = ys := by omega
    rw [hcast] at hk
    exact hk (by omega)

end MazeGen

namespace MazeGen

theorem processed_mono {size : Nat} {target p : Position} {v1 v2 : Finset Position}
    (h12 : v1 ⊆ v2) (h : processed size v1 target p) :
    processed size v2 target p :=
  fun q hq => ⟨h12 (h q hq).1, (h q hq).2⟩

theorem walkInv_init (size : Nat) (start target : Position)
    (hs : inInner size start) :
    WalkInv size start target [start] {start} start := by
  refine ⟨rfl, rfl, List.chain'_singleton _, ?_, ?_, ?_, ?_⟩
  · intro p hp
    rw [List.mem_singleton] at hp
    subst hp
    exact Finset.mem_singleton_self _
  · intro p hp
    rw [List.mem_singleton] at hp
    subst hp
    exact hs
  · intro p hp
    rw [Finset.mem_singleton] at hp
    subst hp
    exact hs
  · intro p hp hnp
    rw [Finset.mem_singleton] at hp
    exact absurd (hp ▸ List.mem_singleton_self _) hnp

theorem walkInv_path_ne {size : Nat} {start target : Position}
    {path : List Position} {visited : Finset Position} {current : Position}
    (inv : WalkInv size start target path visited current) : path ≠ [] := by
  intro hc
  have := inv.head_start
  rw [hc] at this
  cases this

theorem walkInv_pop {size : Nat} {start target : Position} {path : List Position}
    {visited : Finset Position} {current : Position}
    (inv : WalkInv size start target path visited current)
    (hnil : getValidNeighbors current size visited target = [])
    (hne : path.dropLast ≠ []) :
    WalkInv size start target path.dropLast visited
      (path.dropLast.getLast?.getD start) := by
  have hdec : path.dropLast ++ [current] = path :=
    List.dropLast_append_getLast? current inv.last_current
  obtain ⟨lst, hlst⟩ : ∃ l, path.dropLast.getLast? = some l := by
    rcases h : path.dropLast.getLast? with _ | l
    · exact absurd (List.getLast?_eq_none_iff.mp h) hne
    · exact ⟨l, rfl⟩
  have hgetD : path.dropLast.getLast?.getD start = lst := by rw [hlst]; rfl
  have hpfx : path.dropLast <+: path := ⟨[current], hdec⟩
  have hhead : path.dropLast.head? = some start := by
    have h2 : (path.dropLast ++ [current]).head? = path.dropLast.head? :=
      List.head?_append_of_ne_nil path.dropLast hne
    rw [hdec] at h2
    rw [← h2]
    exact inv.head_start
  refine ⟨hhead, by rw [hgetD]; exact hlst, inv.chain.prefix hpfx, ?_, ?_,
    inv.visited_inner, ?_⟩
  · intro p hp
    exact inv.path_visited p (hpfx.subset hp)
  · intro p hp
    exact inv.path_inner p (hpfx.subset hp)
  · intro p hpv hnp
    by_cases hppath : p ∈ path
    · rw [← hdec, List.mem_append, List.mem_singleton] at hppath
      rcases hppath with h | rfl
      · exact absurd h hnp
      · exact getValidNeighbors_nil p size visited target hnil
    · exact inv.popped_processed p hpv hppath

theorem walkInv_push_gen {size : Nat} {start target : Position}
    {path : List Position} {visited : Finset Position} {current : Position}
    (inv : WalkInv size start target path visited current)
    {btw next : Position} (hadj1 : adj current btw) (hadj2 : adj btw next)
    (hbtw : inInner size btw) (hnext : inInner size next) :
    WalkInv size start target (path ++ [btw, next])
      (insert next (insert btw visited)) next := by
  have hpne : path ≠ [] := walkInv_path_ne inv
  refine ⟨?_, ?_, ?_, ?_, ?_, ?_, ?_⟩
  · rw [List.head?_append_of_ne_nil path hpne]
    exact inv.head_start
  · rw [List.getLast?_append_of_ne_nil path (by simp : ([btw, next] : List Position) ≠ [])]
    rfl
  · rw [List.chain'_append]
    refine ⟨inv.chain, List.chain'_pair.mpr hadj2, ?_⟩
    intro x hx y hy
    have hx2 : x = current := by
      have := inv.last_current
      rw [show x ∈ path.getLast? ↔ path.getLast? = some x from Iff.rfl] at hx
      rw [this] at hx
      exact (Option.some_inj.mp hx).symm
    have hy2 : y = btw := by
      rw [show y ∈ ([btw, next] : List Position).head? ↔ some btw = some y from Iff.rfl] at hy
      exact (Option.some_inj.mp hy).symm
    rw [hx2, hy2]
    exact hadj1
  · intro p hp
    rw [List.mem_append] at hp
    rcases hp with hp | hp
    · exact Finset.mem_insert_of_mem (Finset.mem_insert_of_mem (inv.path_visited p hp))
    · rcases List.mem_cons.mp hp with rfl | hp
      · exact Finset.mem_insert_of_mem (Finset.mem_insert_self _ _)
      · rw [List.mem_singleton] at hp
        subst hp
        exact Finset.mem_insert_self _ _
  · intro p hp
    rw [List.mem_append] at hp
    rcases hp with hp | hp
    · exact inv.path_inner p hp
    · rcases List.mem_cons.mp hp with rfl | hp
      · exact hbtw
      · rw [List.mem_singleton] at hp
        subst hp
        exact hnext
  · intro p hp
    rcases Finset.mem_insert.mp hp with rfl | hp
    · exact hnext
    · rcases Finset.mem_insert.mp hp with rfl | hp
      · exact hbtw
      · exact inv.visited_inner p hp
  · intro p hpv hnp
    have hpv2 : p ∈ visited := by
      rcases Finset.mem_insert.mp hpv with rfl | hpv
      · exact absurd (List.mem_append.mpr (Or.inr (by simp))) hnp
      · rcases Finset.mem_insert.mp hpv with rfl | hpv
        · exact absurd (List.mem_append.mpr (Or.inr (by simp))) hnp
        · exact hpv
    have hnp2 : p ∉ path := fun hc => hnp (List.mem_append.mpr (Or.inl hc))
    exact processed_mono
      ((Finset.subset_insert _ _).trans (Finset.subset_insert _ _))
      (inv.popped_processed p hpv2 hnp2)

theorem walk_next_facts {size : Nat} {current target : Position}
    {visited : Finset Position} {next : Position}
    (hcur : inInner size current)
    (hmem : next ∈ getValidNeighbors current size visited target) :
    adj current ⟨current.x + (next.x - current.x) / 2,
      current.y + (next.y - current.y) / 2⟩ ∧
    adj (⟨current.x + (next.x - current.x) / 2,
      current.y + (next.y - current.y) / 2⟩ : Position) next ∧
    inInner size (⟨current.x + (next.x - current.x) / 2,
      current.y + (next.y - current.y) / 2⟩ : Position) ∧
    inInner size next := by
  obtain ⟨d, hd, hnd, hninner, -⟩ := (getValidNeighbors_mem _ _ _ _ _).mp hmem
  have hbet := dirs2_between current next d hd hnd
  rw [hbet]
  refine ⟨(between_adj current d hd).1, ?_, ?_, hninner⟩
  · rw [hnd]
    exact (between_adj current d hd).2
  · exact between_inner size current d hd hcur (hnd ▸ hninner)

end MazeGen

namespace MazeGen

theorem walk_restart_false {size : Nat} {start target : Position}
    {path : List Position} {visited : Finset Position} {current : Position}
    (inv : WalkInv size start target path visited current)
    (hreach : reach2 size start target) (hne : start ≠ target)
    (hnil : getValidNeighbors current size visited target = [])
    (hdrop : path.dropLast = []) : False := by
  have hpne : path ≠ [] := walkInv_path_ne inv
  have hpath1 : path = [start] := by
    match hp2 : path, hpne with
    | [a], _ =>
      have h3 : a = start := Option.some_inj.mp inv.head_start
      rw [h3]
    | a :: b :: t, _ =>
      simp at hdrop
  have hcs : current = start := by
    have h2 := inv.last_current
    rw [hpath1] at h2
    have h3 : start = current := Option.some_inj.mp h2
    exact h3.symm
  have hstartv : start ∈ visited := by
    have := inv.path_visited start (by rw [hpath1]; exact List.mem_singleton_self _)
    exact this
  refine processed_closure_false size start target visited hstartv ?_ hreach hne
  intro p hp
  by_cases hps : p = start
  · subst hps
    rw [hcs] at hnil
    exact getValidNeighbors_nil p size visited target hnil
  · refine inv.popped_processed p hp ?_
    rw [hpath1, List.mem_singleton]
    exact hps

theorem walkGo_spec (size : Nat) (start target : Position)
    (hreach : reach2 size start target) (hne : start ≠ target)
    (htin : inInner size target) :
    ∀ (fuel : Nat) (path : List Position) (visited : Finset Position)
      (current : Position) (o : Oracle),
      WalkInv size start target path visited current →
      3 * ((innerRegion size) \ visited).card + path.length + 1 ≤ fuel →
      ∃ p o2, walkGo size start target fuel path visited current o = some (p, o2) ∧
        p.head? = some start ∧ p.getLast? = some target ∧
        p.Chain' adj ∧ ∀ c ∈ p, inInner size c := by
  intro fuel
  induction fuel with
  | zero =>
    intro path visited current o inv hf
    omega
  | succ n ih =>
    intro path visited current o inv hf
    have hlenpos : 1 ≤ path.length :=
      List.length_pos.mpr (walkInv_path_ne inv)
    rw [walkGo]
    dsimp only
    by_cases hcur : current = target
    · rw [if_pos hcur]
      exact ⟨path, o, rfl, inv.head_start, hcur ▸ inv.last_current, inv.chain,
        inv.path_inner⟩
    · rw [if_neg hcur]
      by_cases hnb : (getValidNeighbors current size visited target).isEmpty
      · rw [if_pos hnb]
        have hnil : getValidNeighbors current size visited target = [] :=
          List.isEmpty_iff.mp hnb
        by_cases hdrop : path.dropLast.isEmpty
        · rw [if_pos hdrop]
          exact (walk_restart_false inv hreach hne hnil
            (List.isEmpty_iff.mp hdrop)).elim
        · rw [if_neg hdrop]
          have hdne : path.dropLast ≠ [] := by
            intro hc
            rw [hc] at hdrop
            exact hdrop rfl
          refine ih path.dropLast visited (path.dropLast.getLast?.getD start) o
            (walkInv_pop inv hnil hdne) ?_
          have hlen : path.dropLast.length = path.length - 1 :=
            List.length_dropLast _
          omega
      · rw [if_neg hnb]
        have hnbne : getValidNeighbors current size visited target ≠ [] := by
          intro hc
          rw [hc] at hnb
          exact hnb rfl
        have hmem : (pickBiasedNeighbor
            (getValidNeighbors current size visited target) target o).1 ∈
            getValidNeighbors current size visited target :=
          pickBiasedNeighbor_mem _ _ _ hnbne
        have hcurmem : current ∈ path := by
          rcases List.mem_getLast?_eq_getLast inv.last_current with ⟨h0, heq⟩
          exact heq ▸ List.getLast_mem h0
        have hcurin : inInner size current := inv.path_inner current hcurmem
        obtain ⟨hadj1, hadj2, hbtwin, hnextin⟩ := walk_next_facts hcurin hmem
        have inv2 := walkInv_push_gen inv hadj1 hadj2 hbtwin hnextin
        by_cases hnt : (pickBiasedNeighbor
            (getValidNeighbors current size visited target) target o).1 = target
        · obtain ⟨m, rfl⟩ : ∃ m, n = m + 1 := ⟨n - 1, by omega⟩
          rw [walkGo]
          dsimp only
          rw [if_pos hnt]
          refine ⟨_, _, rfl, ?_, ?_, ?_, ?_⟩
          · exact inv2.head_start
          · exact inv2.last_current.trans (congrArg some hnt)
          · exact inv2.chain
          · exact inv2.path_inner
        · have hfresh : (pickBiasedNeighbor
              (getValidNeighbors current size visited target) target o).1 ∉ visited := by
            obtain ⟨d, hd, hnd, hin, hfr⟩ := (getValidNeighbors_mem _ _ _ _ _).mp hmem
            rcases hfr with h | h
            · exact h
            · exact absurd h hnt
          refine ih _ _ _ _ inv2 ?_
          have hcard : ((innerRegion size) \
              (insert (pickBiasedNeighbor
                  (getValidNeighbors current size visited target) target o).1
                (insert ⟨current.x + ((pickBiasedNeighbor
                    (getValidNeighbors current size visited target) target o).1.x -
                    current.x) / 2,
                  current.y + ((pickBiasedNeighbor
                    (getValidNeighbors current size visited target) target o).1.y -
                    current.y) / 2⟩ visited))).card <
              ((innerRegion size) \ visited).card :=
            sdiff_insert2_card_lt _ _ _ _
              ((innerRegion_mem size _).mpr hnextin) hfresh
          have hlen2 : (path ++ [(⟨current.x + ((pickBiasedNeighbor
              (getValidNeighbors current size visited target) target o).1.x -
              current.x) / 2,
            current.y + ((pickBiasedNeighbor
              (getValidNeighbors current size visited target) target o).1.y -
              current.y) / 2⟩ : Position),
            (pickBiasedNeighbor
              (getValidNeighbors current size visited target) target o).1]).length =
              path.length + 2 := by
            rw [List.length_append]
            rfl
          omega

end MazeGen

/-! ### C4, stage 3: carving only writes PATH and preserves the grid shape -/

namespace MazeGen

theorem setCell_length (m : Maze) (p : Position) (c : Cell) :
    (setCell m p c).length = m.length := by
  unfold setCell
  split
  · rfl
  · exact List.length_set _ _ _

theorem cellAt?_setCell (m : Maze) (p q : Position) (c : Cell) :
    cellAt? (setCell m p c) q =
      if q = p ∧ (cellAt? m p).isSome then some c else cellAt? m q := by
  by_cases hqneg : q.y < 0 ∨ q.x < 0
  · have hq : cellAt? m q = none := by unfold cellAt?; rw [if_pos hqneg]
    have hlhs : cellAt? (setCell m p c) q = none := by
      unfold cellAt?; rw [if_pos hqneg]
    by_cases hqp : q = p
    · have hpn : cellAt? m p = none := by rw [← hqp]; exact hq
      rw [hlhs, hpn, if_neg (by rintro ⟨-, hs⟩; cases hs), hq]
    · rw [hlhs, if_neg (by rintro ⟨h1, -⟩; exact hqp h1), hq]
  · push_neg at hqneg
    by_cases hpneg : p.y < 0 ∨ p.x < 0
    · have hset : setCell m p c = m := by unfold setCell; rw [if_pos hpneg]
      have hpn : cellAt? m p = none := by unfold cellAt?; rw [if_pos hpneg]
      rw [hset, hpn, if_neg (by rintro ⟨-, hs⟩; cases hs)]
    · push_neg at hpneg
      have hset : setCell m p c =
          m.set p.y.toNat (((m.get? p.y.toNat).getD []).set p.x.toNat c) := by
        unfold setCell
        rw [if_neg (by push_neg; exact hpneg)]
      have hP : cellAt? m p = (m.get? p.y.toNat).bind fun row => row.get? p.x.toNat := by
        unfold cellAt?
        rw [if_neg (by push_neg; exact hpneg)]
      have hR : cellAt? m q = (m.get? q.y.toNat).bind fun row => row.get? q.x.toNat := by
        unfold cellAt?
        rw [if_neg (by push_neg; exact hqneg)]
      have hL : cellAt? (setCell m p c) q =
          ((m.set p.y.toNat (((m.get? p.y.toNat).getD []).set p.x.toNat c)).get?
              q.y.toNat).bind fun row => row.get? q.x.toNat := by
        rw [hset]
        unfold cellAt?
        rw [if_neg (by push_neg; exact hqneg)]
      rw [hL, List.get?_set]
      by_cases hy : p.y.toNat = q.y.toNat
      · rw [if_pos hy]
        rcases hrow : m.get? q.y.toNat with _ | row
        · have hpn : cellAt? m p = none := by
            rw [hP, hy, hrow]
            rfl
          rw [hpn, if_neg (by rintro ⟨-, hs⟩; cases hs), hR, hrow]
          rfl
        · have hrowp : m.get? p.y.toNat = some row := by rw [hy, hrow]
          rw [hrowp]
          show (row.set p.x.toNat c).get? q.x.toNat = _
          rw [List.get?_set]
          by_cases hx : p.x.toNat = q.x.toNat
          · rw [if_pos hx]
            have hqp : q = p := by
              have h1 : q.x = p.x := by omega
              have h2 : q.y = p.y := by omega
              cases q
              cases p
              dsimp only at h1 h2
              rw [h1, h2]
            rcases hcell : row.get? q.x.toNat with _ | c0
            · have hpn : cellAt? m p = none := by
                rw [hP, hrowp]
                show row.get? p.x.toNat = none
                rw [hx]
                exact hcell
              rw [hpn, if_neg (by rintro ⟨-, hs⟩; cases hs), hR, hrow]
              show (none : Option Cell) = row.get? q.x.toNat
              exact hcell.symm
            · have hps : (cellAt? m p).isSome := by
                rw [hP, hrowp]
                show (row.get? p.x.toNat).isSome
                rw [hx, hcell]
                rfl
              rw [if_pos ⟨hqp, hps⟩]
              rfl
          · rw [if_neg hx]
            have hnqp : ¬(q = p ∧ (cellAt? m p).isSome) := by
              rintro ⟨rfl, -⟩
              exact hx rfl
            rw [if_neg hnqp, hR, hrow]
            rfl
      · rw [if_neg hy]
        have hnqp : ¬(q = p ∧ (cellAt? m p).isSome) := by
          rintro ⟨rfl, -⟩
          exact hy rfl
        rw [if_neg hnqp, hR]

theorem cellAt?_isSome_setCell (m : Maze) (p q : Position) (c : Cell) :
    (cellAt? (setCell m p c) q).isSome = (cellAt? m q).isSome := by
  rw [cellAt?_setCell]
  split
  · next hc =>
    obtain ⟨rfl, hs⟩ := hc
    rw [hs]
    rfl
  · rfl

theorem cellAt?_setCell_self (m : Maze) (p : Position) (c : Cell)
    (hs : (cellAt? m p).isSome) :
    cellAt? (setCell m p c) p = some c := by
  rw [cellAt?_setCell, if_pos ⟨rfl, hs⟩]

theorem cellAt?_setCell_path_mono (m : Maze) (p q : Position)
    (h : cellAt? m q = some .PATH) :
    cellAt? (setCell m p .PATH) q = some .PATH := by
  rw [cellAt?_setCell]
  split
  · rfl
  · exact h

end MazeGen

namespace MazeGen

theorem carvePath_length (l : List Position) :
    ∀ m : Maze, (carvePath m l).length = m.length := by
  induction l with
  | nil => intro m; rfl
  | cons a t ih =>
    intro m
    show (carvePath (setCell m a .PATH) t).length = m.length
    rw [ih, setCell_length]

theorem carvePath_isSome (l : List Position) :
    ∀ (m : Maze) (q : Position),
      (cellAt? (carvePath m l) q).isSome = (cellAt? m q).isSome := by
  induction l with
  | nil => intro m q; rfl
  | cons a t ih =>
    intro m q
    show (cellAt? (carvePath (setCell m a .PATH) t) q).isSome = _
    rw [ih, cellAt?_isSome_setCell]

theorem carvePath_path_mono (l : List Position) :
    ∀ (m : Maze) (q : Position), cellAt? m q = some .PATH →
      cellAt? (carvePath m l) q = some .PATH := by
  induction l with
  | nil => intro m q h; exact h
  | cons a t ih =>
    intro m q h
    show cellAt? (carvePath (setCell m a .PATH) t) q = some .PATH
    exact ih _ _ (cellAt?_setCell_path_mono m a q h)

theorem carvePath_mem (l : List Position) :
    ∀ (m : Maze) (q : Position), q ∈ l → (cellAt? m q).isSome →
      cellAt? (carvePath m l) q = some .PATH := by
  induction l with
  | nil =>
    intro m q hq _
    cases hq
  | cons a t ih =>
    intro m q hq hs
    show cellAt? (carvePath (setCell m a .PATH) t) q = some .PATH
    rcases List.mem_cons.mp hq with rfl | hq
    · exact carvePath_path_mono t _ _ (cellAt?_setCell_self m q .PATH hs)
    · refine ih _ _ hq ?_
      rw [cellAt?_isSome_setCell]
      exact hs

theorem carveFromGo_spec (size : Nat) :
    ∀ (fuel : Nat) (maze : Maze) (stack : List Position)
      (visited : Finset Position) (o : Oracle),
      2 * ((innerRegion size) \ visited).card + stack.length + 1 ≤ fuel →
      ∃ m2 v2 o2, carveFromGo size fuel maze stack visited o = some (m2, v2, o2) ∧
        (∀ q, cellAt? maze q = some .PATH → cellAt? m2 q = some .PATH) ∧
        m2.length = maze.length := by
  intro fuel
  induction fuel with
  | zero =>
    intro maze stack visited o hf
    omega
  | succ n ih =>
    intro maze stack visited o hf
    match stack with
    | [] => exact ⟨maze, visited, o, rfl, fun q h => h, rfl⟩
    | current :: rest =>
      rw [carveFromGo]
      dsimp only
      by_cases hnb : (getUnvisitedNeighbors current size visited).isEmpty
      · rw [if_pos hnb]
        refine ih maze rest visited o ?_
        have : (current :: rest).length = rest.length + 1 := rfl
        omega
      · rw [if_neg hnb]
        have hnbne : getUnvisitedNeighbors current size visited ≠ [] := by
          intro hc
          rw [hc] at hnb
          exact hnb rfl
        set nbs := getUnvisitedNeighbors current size visited with hnbs
        set nx := (nbs.get? (o 0 % nbs.length)).getD current with hnxd
        set btw : Position :=
          ⟨current.x + (nx.x - current.x) / 2, current.y + (nx.y - current.y) / 2⟩
          with hbtwd
        have hmem : nx ∈ nbs := by
          have hlen : 0 < nbs.length := List.length_pos.mpr hnbne
          have hlt : o 0 % nbs.length < nbs.length := Nat.mod_lt _ hlen
          rw [hnxd, List.get?_eq_get hlt]
          exact List.get_mem _ _ _
        obtain ⟨d, hd, hnd, hin, hfresh⟩ :=
          (getUnvisitedNeighbors_mem _ _ _ _).mp hmem
        have hmeas : 2 * ((innerRegion size) \ (insert nx (insert btw visited))).card +
            (nx :: current :: rest).length + 1 ≤ n := by
          have hcard := sdiff_insert2_card_lt (innerRegion size) visited nx btw
            ((innerRegion_mem size _).mpr hin) hfresh
          have h1 : (nx :: current :: rest).length = rest.length + 2 := rfl
          have h2 : (current :: rest).length = rest.length + 1 := rfl
          omega
        obtain ⟨m2, v2, o2, hrun, hmono, hlen⟩ :=
          ih (setCell (setCell maze btw .PATH) nx .PATH) (nx :: current :: rest)
            (insert nx (insert btw visited)) (otail o) hmeas
        refine ⟨m2, v2, o2, hrun, ?_, ?_⟩
        · intro q hq
          exact hmono q (cellAt?_setCell_path_mono _ _ _
            (cellAt?_setCell_path_mono _ _ _ hq))
        · rw [hlen, setCell_length, setCell_length]

end MazeGen

namespace MazeGen

theorem sdiff_card_le_region (size : Nat) (visited : Finset Position) :
    ((innerRegion size) \ visited).card ≤ size * size :=
  le_trans (Finset.card_le_card Finset.sdiff_subset) (innerRegion_card_le size)

theorem carveFrom_spec (size : Nat) (maze : Maze) (start : Position)
    (visited : Finset Position) (o : Oracle) :
    ∃ m2 v2 o2, carveFrom size maze start visited o = some (m2, v2, o2) ∧
      (∀ q, cellAt? maze q = some .PATH → cellAt? m2 q = some .PATH) ∧
      m2.length = maze.length := by
  unfold carveFrom
  refine carveFromGo_spec size (carveFuel size) maze [start] visited o ?_
  have h1 := sdiff_card_le_region size visited
  have h2 : ([start] : List Position).length = 1 := rfl
  have h3 : 2 * size * size = 2 * (size * size) := by ring
  unfold carveFuel
  omega

theorem branchLoop_spec (size : Nat) :
    ∀ (points : List Position) (maze : Maze) (visited : Finset Position)
      (o : Oracle),
      ∃ m2 v2 o2, branchLoop size points maze visited o = some (m2, v2, o2) ∧
        (∀ q, cellAt? maze q = some .PATH → cellAt? m2 q = some .PATH) ∧
        m2.length = maze.length := by
  intro points
  induction points with
  | nil =>
    intro maze visited o
    exact ⟨maze, visited, o, rfl, fun q h => h, rfl⟩
  | cons a t ih =>
    intro maze visited o
    obtain ⟨mC, vC2, oC, hC, hCmono, hClen⟩ := carveFrom_spec size maze a visited o
    obtain ⟨m2, v2, o2, h2, h2mono, h2len⟩ := ih mC vC2 oC
    refine ⟨m2, v2, o2, ?_, fun q hq => h2mono q (hCmono q hq), by rw [h2len, hClen]⟩
    show branchLoop size (a :: t) maze visited o = some (m2, v2, o2)
    unfold branchLoop
    rw [hC]
    exact h2

theorem addBranchPaths_spec (size : Nat) (maze : Maze)
    (solutionPath : List Position) (o : Oracle) :
    ∃ m2 o2, addBranchPaths size maze solutionPath o = some (m2, o2) ∧
      (∀ q, cellAt? maze q = some .PATH → cellAt? m2 q = some .PATH) ∧
      m2.length = maze.length := by
  unfold addBranchPaths
  dsimp only
  obtain ⟨m2, v2, o2, hrun, hmono, hlen⟩ := branchLoop_spec size
    (shuffle (evenIndexed solutionPath) o).1 maze
    (solutionPath.foldl (fun s p => insert p s) ∅)
    (shuffle (evenIndexed solutionPath) o).2
  rw [hrun]
  exact ⟨m2, o2, rfl, hmono, hlen⟩

end MazeGen

/-! ### C4, stage 4: the BFS of `hasPath` finds the carved corridor -/

namespace MazeGen

theorem adj_dirs1 {p q : Position} (h : adj p q) :
    ∃ d ∈ dirs1, q = (⟨p.x + d.1, p.y + d.2⟩ : Position) := by
  unfold adj manhattanDistance at h
  have hcases : (q.x - p.x = 0 ∧ (q.y - p.y = 1 ∨ q.y - p.y = -1)) ∨
      (q.y - p.y = 0 ∧ (q.x - p.x = 1 ∨ q.x - p.x = -1)) := by omega
  unfold dirs1
  rcases hcases with ⟨hx, hy | hy⟩ | ⟨hy, hx | hx⟩
  · exact ⟨(0, 1), by simp, by cases q; cases p; dsimp only at hx hy ⊢; congr 1 <;> omega⟩
  · exact ⟨(0, -1), by simp, by cases q; cases p; dsimp only at hx hy ⊢; congr 1 <;> omega⟩
  · exact ⟨(1, 0), by simp, by cases q; cases p; dsimp only at hx hy ⊢; congr 1 <;> omega⟩
  · exact ⟨(-1, 0), by simp, by cases q; cases p; dsimp only at hx hy ⊢; congr 1 <;> omega⟩

theorem bfs_fold_spec (maze : Maze) (current : Position) :
    ∀ (l : List (Int × Int)) (st : Finset Position × List Position),
      st.1 ⊆ (l.foldl (fun (st : Finset Position × List Position) d =>
          if inGrid maze.length (⟨current.x + d.1, current.y + d.2⟩ : Position) ∧
              cellAt? maze (⟨current.x + d.1, current.y + d.2⟩ : Position) = some .PATH ∧
              (⟨current.x + d.1, current.y + d.2⟩ : Position) ∉ st.1 then
            (insert (⟨current.x + d.1, current.y + d.2⟩ : Position) st.1,
              st.2 ++ [(⟨current.x + d.1, current.y + d.2⟩ : Position)])
          else st) st).1 ∧
      (∀ x ∈ (l.foldl (fun (st : Finset Position × List Position) d =>
          if inGrid maze.length (⟨current.x + d.1, current.y + d.2⟩ : Position) ∧
              cellAt? maze (⟨current.x + d.1, current.y + d.2⟩ : Position) = some .PATH ∧
              (⟨current.x + d.1, current.y + d.2⟩ : Position) ∉ st.1 then
            (insert (⟨current.x + d.1, current.y + d.2⟩ : Position) st.1,
              st.2 ++ [(⟨current.x + d.1, current.y + d.2⟩ : Position)])
          else st) st).2, x ∈ st.2 ∨ x ∈ (l.foldl (fun (st : Finset Position × List Position) d =>
          if inGrid maze.length (⟨current.x + d.1, current.y + d.2⟩ : Position) ∧
              cellAt? maze (⟨current.x + d.1, current.y + d.2⟩ : Position) = some .PATH ∧
              (⟨current.x + d.1, current.y + d.2⟩ : Position) ∉ st.1 then
            (insert (⟨current.x + d.1, current.y + d.2⟩ : Position) st.1,
              st.2 ++ [(⟨current.x + d.1, current.y + d.2⟩ : Position)])
          else st) st).1) ∧
      (∀ x ∈ (l.foldl (fun (st : Finset Position × List Position) d =>
          if inGrid maze.length (⟨current.x + d.1, current.y + d.2⟩ : Position) ∧
              cellAt? maze (⟨current.x + d.1, current.y + d.2⟩ : Position) = some .PATH ∧
              (⟨current.x + d.1, current.y + d.2⟩ : Position) ∉ st.1 then
            (insert (⟨current.x + d.1, current.y + d.2⟩ : Position) st.1,
              st.2 ++ [(⟨current.x + d.1, current.y + d.2⟩ : Position)])
          else st) st).1, x ∈ st.1 ∨ x ∈ (l.foldl (fun (st : Finset Position × List Position) d =>
          if inGrid maze.length (⟨current.x + d.1, current.y + d.2⟩ : Position) ∧
              cellAt? maze (⟨current.x + d.1, current.y + d.2⟩ : Position) = some .PATH ∧
              (⟨current.x + d.1, current.y + d.2⟩ : Position) ∉ st.1 then
            (insert (⟨current.x + d.1, current.y + d.2⟩ : Position) st.1,
              st.2 ++ [(⟨current.x + d.1, current.y + d.2⟩ : Position)])
          else st) st).2) ∧
      (∀ d ∈ l, inGrid maze.length (⟨current.x + d.1, current.y + d.2⟩ : Position) →
        cellAt? maze (⟨current.x + d.1, current.y + d.2⟩ : Position) = some .PATH →
        (⟨current.x + d.1, current.y + d.2⟩ : Position) ∈
          (l.foldl (fun (st : Finset Position × List Position) d =>
          if inGrid maze.length (⟨current.x + d.1, current.y + d.2⟩ : Position) ∧
              cellAt? maze (⟨current.x + d.1, current.y + d.2⟩ : Position) = some .PATH ∧
              (⟨current.x + d.1, current.y + d.2⟩ : Position) ∉ st.1 then
            (insert (⟨current.x + d.1, current.y + d.2⟩ : Position) st.1,
              st.2 ++ [(⟨current.x + d.1, current.y + d.2⟩ : Position)])
          else st) st).1) ∧
      ((gridRegion maze.length \ (l.foldl (fun (st : Finset Position × List Position) d =>
          if inGrid maze.length (⟨current.x + d.1, current.y + d.2⟩ : Position) ∧
              cellAt? maze (⟨current.x + d.1, current.y + d.2⟩ : Position) = some .PATH ∧
              (⟨current.x + d.1, current.y + d.2⟩ : Position) ∉ st.1 then
            (insert (⟨current.x + d.1, current.y + d.2⟩ : Position) st.1,
              st.2 ++ [(⟨current.x + d.1, current.y + d.2⟩ : Position)])
          else st) st).1).card + (l.foldl (fun (st : Finset Position × List Position) d =>
          if inGrid maze.length (⟨current.x + d.1, current.y + d.2⟩ : Position) ∧
              cellAt? maze (⟨current.x + d.1, current.y + d.2⟩ : Position) = some .PATH ∧
              (⟨current.x + d.1, current.y + d.2⟩ : Position) ∉ st.1 then
            (insert (⟨current.x + d.1, current.y + d.2⟩ : Position) st.1,
              st.2 ++ [(⟨current.x + d.1, current.y + d.2⟩ : Position)])
          else st) st).2.length ≤
        (gridRegion maze.length \ st.1).card + st.2.length) ∧
      (∀ x ∈ st.2, x ∈ (l.foldl (fun (st : Finset Position × List Position) d =>
          if inGrid maze.length (⟨current.x + d.1, current.y + d.2⟩ : Position) ∧
              cellAt? maze (⟨current.x + d.1, current.y + d.2⟩ : Position) = some .PATH ∧
              (⟨current.x + d.1, current.y + d.2⟩ : Position) ∉ st.1 then
            (insert (⟨current.x + d.1, current.y + d.2⟩ : Position) st.1,
              st.2 ++ [(⟨current.x + d.1, current.y + d.2⟩ : Position)])
          else st) st).2) := by
  intro l
  induction l with
  | nil =>
    intro st
    exact ⟨subset_rfl, fun x hx => Or.inl hx, fun x hx => Or.inl hx,
      fun d hd => absurd hd (List.not_mem_nil d), le_refl _, fun x hx => hx⟩
  | cons d0 t ih =>
    intro st
    rw [List.foldl_cons]
    by_cases hc : inGrid maze.length (⟨current.x + d0.1, current.y + d0.2⟩ : Position) ∧
        cellAt? maze (⟨current.x + d0.1, current.y + d0.2⟩ : Position) = some .PATH ∧
        (⟨current.x + d0.1, current.y + d0.2⟩ : Position) ∉ st.1
    · rw [if_pos hc]
      obtain ⟨ihsub, ihq, ihv, ihd, ihm, ihq2⟩ := ih
        (insert (⟨current.x + d0.1, current.y + d0.2⟩ : Position) st.1,
          st.2 ++ [(⟨current.x + d0.1, current.y + d0.2⟩ : Position)])
      refine ⟨(Finset.subset_insert _ _).trans ihsub, ?_, ?_, ?_, ?_, ?_⟩
      · intro x hx
        rcases ihq x hx with hx2 | hx2
        · rcases List.mem_append.mp hx2 with hx3 | hx3
          · exact Or.inl hx3
          · rw [List.mem_singleton] at hx3
            subst hx3
            exact Or.inr (ihsub (Finset.mem_insert_self _ _))
        · exact Or.inr hx2
      · intro x hx
        rcases ihv x hx with hx2 | hx2
        · rcases Finset.mem_insert.mp hx2 with rfl | hx3
          · exact Or.inr (ihq2 _ (List.mem_append.mpr (Or.inr (by simp))))
          · exact Or.inl hx3
        · exact Or.inr hx2
      · intro d hd hg hp
        rcases List.mem_cons.mp hd with rfl | hd2
        · exact ihsub (Finset.mem_insert_self _ _)
        · exact ihd d hd2 hg hp
      · refine le_trans ihm ?_
        have hng : (⟨current.x + d0.1, current.y + d0.2⟩ : Position) ∈
            gridRegion maze.length := (gridRegion_mem _ _).mpr hc.1
        rw [Finset.sdiff_insert, List.length_append,
          Finset.card_erase_of_mem (Finset.mem_sdiff.mpr ⟨hng, hc.2.2⟩)]
        have hpos : 0 < (gridRegion maze.length \ st.1).card :=
          Finset.card_pos.mpr ⟨_, Finset.mem_sdiff.mpr ⟨hng, hc.2.2⟩⟩
        have hone : ([(⟨current.x + d0.1, current.y + d0.2⟩ : Position)]).length = 1 := rfl
        omega
      · intro x hx
        exact ihq2 x (List.mem_append.mpr (Or.inl hx))
    · rw [if_neg hc]
      obtain ⟨ihsub, ihq, ihv, ihd, ihm, ihq2⟩ := ih st
      refine ⟨ihsub, ihq, ihv, ?_, ihm, ihq2⟩
      intro d hd hg hp
      rcases List.mem_cons.mp hd with rfl | hd2
      · push_neg at hc
        exact ihsub (hc hg hp)
      · exact ihd d hd2 hg hp

end MazeGen

namespace MazeGen

/-- One BFS expansion step: `q` is an in-bounds PATH cell one grid step from
`p` (the condition under which `hasPath`'s inner loop enqueues `q`). -/
def bstep (maze : Maze) (p q : Position) : Prop :=
  (∃ d ∈ dirs1, q = ⟨p.x + d.1, p.y + d.2⟩) ∧
    inGrid maze.length q ∧ cellAt? maze q = some .PATH

theorem hasPathGo_spec (maze : Maze) (target : Position) :
    ∀ (fuel : Nat) (visited : Finset Position) (queue : List Position),
      BfsInv maze target visited queue →
      (∃ s ∈ visited, Relation.ReflTransGen (bstep maze) s target) →
      (gridRegion maze.length \ visited).card + queue.length + 1 ≤ fuel →
      hasPathGo maze target fuel visited queue = some true := by
  intro fuel
  induction fuel with
  | zero => intro visited queue _ _ hf; omega
  | succ fuel ih =>
    intro visited queue inv hchain hf
    obtain ⟨s, hs, hchain⟩ := hchain
    cases queue with
    | nil =>
      have hclosed : ∀ x, Relation.ReflTransGen (bstep maze) s x → x ∈ visited := by
        intro x hx
        induction hx with
        | refl => exact hs
        | @tail b c hab hbc ihc =>
          obtain ⟨⟨d, hd, rfl⟩, hg, hp⟩ := hbc
          exact (inv.done_processed b ihc (List.not_mem_nil b)).2 d hd _ rfl hg hp
      exact absurd rfl
        (inv.done_processed target (hclosed target hchain) (List.not_mem_nil _)).1
    | cons current tail =>
      show hasPathGo maze target (fuel + 1) visited (current :: tail) = some true
      unfold hasPathGo
      by_cases hct : current = target
      · rw [if_pos hct]
      · rw [if_neg hct]
        dsimp only
        obtain ⟨h1, h2, h3, h4, h5, h6⟩ := bfs_fold_spec maze current dirs1 (visited, tail)
        refine ih _ _ ?_ ⟨s, h1 hs, hchain⟩ ?_
        · refine ⟨?_, ?_⟩
          · intro p hp
            rcases h2 p hp with hp2 | hp2
            · exact h1 (inv.queue_visited p (List.mem_cons_of_mem _ hp2))
            · exact hp2
          · intro p hp hpq
            rcases h3 p hp with hp2 | hp2
            · by_cases hpc : p = current
              · subst hpc
                refine ⟨hct, ?_⟩
                intro d hd q hq hg hcp
                subst hq
                exact h4 d hd hg hcp
              · have hpt : p ∉ tail := fun hmem => hpq (h6 p hmem)
                have hpold : p ∉ current :: tail := by
                  intro hmem
                  rcases List.mem_cons.mp hmem with rfl | hmem2
                  · exact hpc rfl
                  · exact hpt hmem2
                obtain ⟨hne, hnb⟩ := inv.done_processed p hp2 hpold
                refine ⟨hne, ?_⟩
                intro d hd q hq hg hcp
                exact h1 (hnb d hd q hq hg hcp)
            · exact absurd hp2 hpq
        · have hlen : (current :: tail).length = tail.length + 1 := rfl
          dsimp only at h5
          omega

theorem hasPath_spec (maze : Maze) (start target : Position)
    (hchain : Relation.ReflTransGen (bstep maze) start target) :
    hasPath maze start target = some true := by
  unfold hasPath
  refine hasPathGo_spec maze target _ _ _ ?_ ⟨start, Finset.mem_singleton_self start, hchain⟩ ?_
  · refine ⟨?_, ?_⟩
    · intro p hp
      rw [List.mem_singleton] at hp
      subst hp
      exact Finset.mem_singleton_self p
    · intro p hp hpq
      rw [Finset.mem_singleton] at hp
      subst hp
      exact absurd (List.mem_singleton_self p) hpq
  · have h1 : (gridRegion maze.length \ {start}).card ≤ (gridRegion maze.length).card :=
      Finset.card_le_card Finset.sdiff_subset
    have h2 := gridRegion_card_le maze.length
    unfold bfsFuel
    have h3 : ([start]).length = 1 := rfl
    omega

end MazeGen

/-! ### C4, stage 5: assembling the solvability guarantee of `generateMaze` -/

namespace MazeGen

theorem cellAt?_replicate_wall (n : Nat) (q : Position) (h : inGrid n q) :
    cellAt? (List.replicate n (List.replicate n Cell.WALL)) q = some .WALL := by
  obtain ⟨h1, h2, h3, h4⟩ := h
  unfold cellAt?
  rw [if_neg (by omega)]
  rw [List.get?_eq_getElem?, List.getElem?_replicate, if_pos (by omega : q.y.toNat < n)]
  show (List.replicate n Cell.WALL).get? q.x.toNat = some .WALL
  rw [List.get?_eq_getElem?, List.getElem?_replicate, if_pos (by omega : q.x.toNat < n)]

theorem inInner_imp_inGrid (size : Nat) (p : Position) (h : inInner size p) :
    inGrid size p := by
  obtain ⟨h1, h2, h3, h4⟩ := h
  exact ⟨by omega, by omega, by omega, by omega⟩

theorem oddCoords_getD (size i : Nat) (hodd : size % 2 = 1) (h3 : 3 ≤ size) :
    (((oddCoords size).get? i).getD 1) % 2 = 1 ∧
    1 ≤ ((oddCoords size).get? i).getD 1 ∧
    ((oddCoords size).get? i).getD 1 ≤ size - 2 := by
  match hg : (oddCoords size).get? i with
  | none =>
    show (1 : Nat) % 2 = 1 ∧ 1 ≤ (1 : Nat) ∧ (1 : Nat) ≤ size - 2
    omega
  | some v =>
    have hv : v ∈ oddCoords size := List.get?_mem hg
    unfold oddCoords at hv
    rw [List.mem_map] at hv
    obtain ⟨k, hk, rfl⟩ := hv
    rw [List.mem_range] at hk
    simp only [Option.getD_some]
    omega

theorem pickEdgePosition_left_spec (size : Nat) (o : Oracle)
    (hodd : size % 2 = 1) (h3 : 3 ≤ size) :
    (pickEdgePosition size .left o).1.x = 1 ∧
    (pickEdgePosition size .left o).1.y % 2 = 1 ∧
    1 ≤ (pickEdgePosition size .left o).1.y ∧
    (pickEdgePosition size .left o).1.y ≤ (size : Int) - 2 := by
  obtain ⟨ho, h1, h2⟩ :=
    oddCoords_getD size ((o 0) % (oddCoords size).length) hodd h3
  unfold pickEdgePosition
  dsimp only
  refine ⟨rfl, ?_, ?_, ?_⟩ <;> omega

theorem pickEdgePosition_right_spec (size : Nat) (o : Oracle)
    (hodd : size % 2 = 1) (h3 : 3 ≤ size) :
    (pickEdgePosition size .right o).1.x = (size : Int) - 2 ∧
    (pickEdgePosition size .right o).1.y % 2 = 1 ∧
    1 ≤ (pickEdgePosition size .right o).1.y ∧
    (pickEdgePosition size .right o).1.y ≤ (size : Int) - 2 := by
  obtain ⟨ho, h1, h2⟩ :=
    oddCoords_getD size ((o 0) % (oddCoords size).length) hodd h3
  unfold pickEdgePosition
  dsimp only
  refine ⟨rfl, ?_, ?_, ?_⟩ <;> omega

theorem chain_bstep (maze : Maze) :
    ∀ (l : List Position) (s t : Position),
      l.head? = some s → l.getLast? = some t → l.Chain' adj →
      (∀ c ∈ l, inGrid maze.length c ∧ cellAt? maze c = some .PATH) →
      Relation.ReflTransGen (bstep maze) s t := by
  intro l
  induction l with
  | nil => intro s t hh; cases hh
  | cons a rest ih =>
    intro s t hh hl hc hcells
    have hsa : s = a := by
      rw [List.head?_cons] at hh
      exact (Option.some.inj hh).symm
    subst hsa
    cases rest with
    | nil =>
      have hts : t = s := by
        rw [List.getLast?_singleton] at hl
        exact (Option.some.inj hl).symm
      subst hts
      exact Relation.ReflTransGen.refl
    | cons b rest2 =>
      have hab : adj s b := (List.chain'_cons.mp hc).1
      have hstep : bstep maze s b := by
        refine ⟨adj_dirs1 hab, ?_, ?_⟩
        · exact (hcells b (List.mem_cons_of_mem _ (List.mem_cons_self _ _))).1
        · exact (hcells b (List.mem_cons_of_mem _ (List.mem_cons_self _ _))).2
      refine Relation.ReflTransGen.head hstep ?_
      refine ih b t rfl ?_ (List.chain'_cons.mp hc).2 ?_
      · rw [List.getLast?_cons_cons] at hl
        exact hl
      · intro c hcmem
        exact hcells c (List.mem_cons_of_mem _ hcmem)

end MazeGen

namespace MazeGen

/-- C4: for every requested odd size in [7, 51] and every sequence of random
choices, `generateMaze` returns a result whose entrance and exit cells are
carved PATH, with `entrance.x = 1` and `exit.x = size - 2`, both at
odd-aligned y coordinates, and `hasPath(maze, entrance, exit)` reports true:
the maze is solvable entrance-to-exit by construction. -/
theorem generateMaze_solvable (size : Nat) (o : Oracle)
    (hodd : size % 2 = 1) (h7 : 7 ≤ size) (h51 : size ≤ 51) :
    ∃ r : MazeResult, generateMaze size o = some r ∧
      r.entrance.x = 1 ∧ r.exit.x = (size : Int) - 2 ∧
      r.entrance.y % 2 = 1 ∧ r.exit.y % 2 = 1 ∧
      cellAt? r.maze r.entrance = some .PATH ∧
      cellAt? r.maze r.exit = some .PATH ∧
      hasPath r.maze r.entrance r.exit = some true := by
  set pe := pickEdgePosition size Side.left o with hpe
  set px := pickEdgePosition size Side.right pe.2 with hpx
  obtain ⟨hex, hey2, hey1, heyU⟩ := pickEdgePosition_left_spec size o hodd (by omega)
  obtain ⟨hxx, hxy2, hxy1, hxyU⟩ := pickEdgePosition_right_spec size pe.2 hodd (by omega)
  rw [← hpe] at hex hey2 hey1 heyU
  rw [← hpx] at hxx hxy2 hxy1 hxyU
  have hEin : inInner size pe.1 := ⟨by omega, by omega, by omega, by omega⟩
  have hXin : inInner size px.1 := ⟨by omega, by omega, by omega, by omega⟩
  have hne : pe.1 ≠ px.1 := by
    intro h
    have hx := congrArg Position.x h
    rw [hex, hxx] at hx
    omega
  have hreach : reach2 size pe.1 px.1 := by
    have hE : pe.1 = (⟨1, pe.1.y⟩ : Position) := by
      show (⟨pe.1.x, pe.1.y⟩ : Position) = ⟨1, pe.1.y⟩
      rw [hex]
    have hX : px.1 = (⟨(size : Int) - 2, px.1.y⟩ : Position) := by
      show (⟨px.1.x, px.1.y⟩ : Position) = ⟨(size : Int) - 2, px.1.y⟩
      rw [hxx]
    rw [hE, hX]
    exact reach2_entrance_exit size h7 hodd _ _ hey1 heyU hxy1 hxyU (by omega)
  obtain ⟨p, o3, hwalk, hhead, hlast, hchain, hinner⟩ :=
    walkGo_spec size pe.1 px.1 hreach hne hXin (walkFuel size) [pe.1] {pe.1} pe.1 px.2
      (walkInv_init size pe.1 px.1 hEin)
      (by
        have h1 := sdiff_card_le_region size ({pe.1} : Finset Position)
        have h2 : ([pe.1] : List Position).length = 1 := rfl
        have h3 : 3 * size * size = 3 * (size * size) := by ring
        unfold walkFuel
        omega)
  have hcellsP : ∀ q ∈ p,
      cellAt? (carvePath (List.replicate size (List.replicate size Cell.WALL)) p) q =
        some .PATH := by
    intro q hq
    refine carvePath_mem p _ q hq ?_
    rw [cellAt?_replicate_wall size q (inInner_imp_inGrid size q (hinner q hq))]
    rfl
  obtain ⟨m2, o4, hbranch, hmono, hlen2⟩ := addBranchPaths_spec size
    (carvePath (List.replicate size (List.replicate size Cell.WALL)) p) p o3
  have hm2cells : ∀ q ∈ p, cellAt? m2 q = some .PATH :=
    fun q hq => hmono q (hcellsP q hq)
  have hm2len : m2.length = size := by
    rw [hlen2, carvePath_length, List.length_replicate]
  have hmemE : pe.1 ∈ p := List.mem_of_mem_head? hhead
  have hmemX : px.1 ∈ p := List.mem_of_mem_getLast? hlast
  have hbfs : hasPath m2 pe.1 px.1 = some true := by
    refine hasPath_spec m2 pe.1 px.1 ?_
    refine chain_bstep m2 p pe.1 px.1 hhead hlast hchain ?_
    intro c hc
    refine ⟨?_, hm2cells c hc⟩
    rw [hm2len]
    exact inInner_imp_inGrid size c (hinner c hc)
  refine ⟨⟨m2, pe.1, px.1, p⟩, ?_, hex, hxx, hey2, hxy2,
    hm2cells _ hmemE, hm2cells _ hmemX, hbfs⟩
  unfold generateMaze
  have hms : (if size % 2 = 0 then size + 1 else size) = size := if_neg (by omega)
  rw [hms]
  dsimp only
  rw [← hpe, ← hpx]
  have hgen : generateRandomPath size pe.1 px.1 (walkFuel size) px.2 = some (p, o3) :=
    hwalk
  rw [hgen]
  dsimp only
  rw [hbranch]

end MazeGen

namespace MazeGen

/-- Witness for the C4 theorem: size 7 with the all-zeros oracle. -/
theorem generateMaze_solvable_witness :
    7 % 2 = 1 ∧ 7 ≤ 7 ∧ 7 ≤ 51 ∧
    (∃ r : MazeResult, generateMaze 7 Fix.oZero = some r ∧
      r.entrance.x = 1 ∧ r.exit.x = ((7 : Nat) : Int) - 2 ∧
      r.entrance.y % 2 = 1 ∧ r.exit.y % 2 = 1 ∧
      cellAt? r.maze r.entrance = some .PATH ∧
      cellAt? r.maze r.exit = some .PATH ∧
      hasPath r.maze r.entrance r.exit = some true) :=
  ⟨by decide, by decide, by decide,
    generateMaze_solvable 7 Fix.oZero (by decide) (by decide) (by decide)⟩

end MazeGen
